import Mathlib

/-!
Verification development for the cohydra derivation engine
(`src/cohydra/profile.py`, `src/cohydra/util.py`).

The filesystem is embedded shallowly: a tree of nodes (regular files,
symlinks, directories).  Relative paths are lists of name components
(`os.path.join` on relative components concatenates them).  File metadata
(`st_mode`, `st_mtime`, `st_mtime_ns`) is a record of naturals.  A symlink
node carries its target string and, as an oracle for what the operating
system would resolve it to, the node its target points at (`none` for a
broken link); this models `os.stat` / `os.path.isdir` and `os.scandir`
following symlinks.  Directory entry lists are kept sorted by name, the
canonical directory-listing order (callers of `os.scandir` must not depend
on a particular sibling order).

Stateful Python code becomes explicit state passing: each operation takes
the destination tree and returns the updated tree together with an
`Option String` error (an uncaught exception; the partially mutated state
at the moment of the raise is retained, as on a real filesystem).
-/

namespace Cohydra

/-- Relative path: a list of name components. -/
abbrev Path := List String

/-- The slice of `os.stat_result` the engine consults: permission/mode
bits and the two modification-time components `st_mtime` and
`st_mtime_ns` (`shutil.copystat` copies all of these). -/
structure Stat where
  mode : Nat
  mtime : Nat
  mtimeNs : Nat
deriving DecidableEq, Repr

/-- A filesystem node.  `symlink target resolved` records the target
string written into the link and the node the operating system would
reach by resolving it (`none` for a broken link). -/
inductive FSNode where
  | file (st : Stat) (content : String)
  | symlink (target : String) (resolved : Option FSNode)
  | dir (st : Stat) (entries : List (String × FSNode))
deriving Repr

/-- Fully resolve a node as the OS does for `os.stat`/`os.path.isdir`:
follow symlink chains to a file or directory, `none` if broken. -/
def resolveNode : FSNode → Option FSNode
  | .file st c => some (.file st c)
  | .dir st es => some (.dir st es)
  | .symlink _ none => none
  | .symlink _ (some m) => resolveNode m

/-- The `st` record of a non-symlink node. -/
def nodeStat : FSNode → Option Stat
  | .file st _ => some st
  | .dir st _ => some st
  | .symlink _ _ => none

/-- `os.stat` on the node (follows symlinks); `none` models the
`OSError` raised for a broken link. -/
def statFollow (n : FSNode) : Option Stat :=
  (resolveNode n).bind nodeStat

/-- Directory entries visible through the node, following symlinks
(`os.scandir` on a path whose final component is a symlink to a
directory lists the target).  `none` when the node does not resolve to a
directory. -/
def entriesOfF (n : FSNode) : Option (List (String × FSNode)) :=
  match resolveNode n with
  | some (.dir _ es) => some es
  | _ => none

/-- `os.path.isdir` (follows symlinks). -/
def isDirF (n : FSNode) : Bool :=
  (entriesOfF n).isSome

/-- `os.path.islink`. -/
def isLink : FSNode → Bool
  | .symlink _ _ => true
  | _ => false

/-- Render a relative path the way the Python code builds it with
`os.path.join` on relative components. -/
def pathStr (p : Path) : String :=
  String.intercalate "/" p

/-! ### Directory-entry list primitives -/

/-- Look a name up in a directory entry list. -/
def findEntry : List (String × FSNode) → String → Option FSNode
  | [], _ => none
  | (m, w) :: rest, n => if n = m then some w else findEntry rest n

/-- Lexicographic code-point comparison of character lists (the order
`os.scandir` listings are sorted in). -/
def strLtL : List Char → List Char → Bool
  | [], [] => false
  | [], _ :: _ => true
  | _ :: _, [] => false
  | a :: as, b :: bs =>
    if a.toNat < b.toNat then true
    else if b.toNat < a.toNat then false
    else strLtL as bs

/-- Lexicographic code-point comparison of names. -/
def strLt (a b : String) : Bool := strLtL a.data b.data

/-- Replace-or-insert an entry, keeping the list sorted by name. -/
def setEntry : List (String × FSNode) → String → FSNode → List (String × FSNode)
  | [], n, v => [(n, v)]
  | (m, w) :: rest, n, v =>
    if n = m then (n, v) :: rest
    else if strLt n m then (n, v) :: (m, w) :: rest
    else (m, w) :: setEntry rest n v

/-- Remove an entry by name. -/
def removeEntry (es : List (String × FSNode)) (n : String) : List (String × FSNode) :=
  es.filter (fun e => e.1 ≠ n)

/-! ### Path operations on trees

Path traversal is literal: intermediate components must be actual
directories.  (The passes under verification realise every destination
directory as a real directory before placing anything beneath it, so
this coincides with the OS behaviour on the states they produce.) -/

/-- `os.path.lexists` / `os.lstat`-style lookup: returns the node at the
path without following a symlink in the final component. -/
def lookupPath : FSNode → Path → Option FSNode
  | n, [] => some n
  | .dir _ es, c :: rest =>
    match findEntry es c with
    | some m => lookupPath m rest
    | none => none
  | _, _ :: _ => none

/-- Lookup that follows symlinks in intermediate components (the OS
resolves them during traversal); the final node is returned as-is. -/
def lookupF : FSNode → Path → Option FSNode
  | n, [] => some n
  | n, c :: rest =>
    match entriesOfF n with
    | some es =>
      match findEntry es c with
      | some m => lookupF m rest
      | none => none
    | none => none

/-- Write `v` at a non-empty path whose parents are existing
directories. -/
def setAtPath : FSNode → Path → FSNode → Option FSNode
  | .dir st es, [c], v => some (.dir st (setEntry es c v))
  | .dir st es, c :: c2 :: rest, v =>
    match findEntry es c with
    | some m => (setAtPath m (c2 :: rest) v).map fun m' => .dir st (setEntry es c m')
    | none => none
  | _, _, _ => none

/-- Remove the entry at a non-empty path (with everything beneath it:
this is what `os.remove`, `os.rmdir` and `shutil.rmtree` have in common;
emptiness for `rmdir` is checked by the caller). -/
def removeAtPath : FSNode → Path → Option FSNode
  | .dir st es, [c] =>
    match findEntry es c with
    | some _ => some (.dir st (removeEntry es c))
    | none => none
  | .dir st es, c :: c2 :: rest =>
    match findEntry es c with
    | some m => (removeAtPath m (c2 :: rest)).map fun m' => .dir st (setEntry es c m')
    | none => none
  | _, _ => none

/-- `os.makedirs(path, exist_ok=True)`: create the missing directories
along the path, with stats `d0` (fresh directories get the
current-umask mode and current time; `d0` stands for that run-time
value).  Errors (`none`) when a component exists as a non-directory. -/
def makedirs (d0 : Stat) : FSNode → Path → Option FSNode
  | .dir st es, [] => some (.dir st es)
  | .dir st es, c :: rest =>
    match findEntry es c with
    | some m => (makedirs d0 m rest).map fun m' => .dir st (setEntry es c m')
    | none => (makedirs d0 (.dir d0 []) rest).map fun m' => .dir st (setEntry es c m')
  | .file _ _, _ => none
  | .symlink _ _, _ => none

/-- All literal paths strictly beneath the node, in listing order,
parents before children (the resolved target of a symlink is not part
of the tree). -/
def flatPaths : FSNode → List Path
  | .file _ _ => []
  | .symlink _ _ => []
  | .dir _ es => flatList [] es
where
  /-- Paths contributed by an entry list whose directory sits at `rp`. -/
  flatList (rp : Path) : List (String × FSNode) → List Path
    | [] => []
    | (n, nd) :: rest =>
      (rp ++ [n]) ::
        (match nd with
         | .dir _ es => flatList (rp ++ [n]) es
         | _ => []) ++ flatList rp rest

/-- Observable shape of a node, used in theorem statements (decidable,
unlike full `FSNode` equality). -/
inductive Shape where
  | f (st : Stat) (content : String)
  | l (target : String)
  | d (st : Stat)
deriving DecidableEq, Repr

/-- The shape of a node. -/
def shapeOf : FSNode → Shape
  | .file st c => .f st c
  | .symlink t _ => .l t
  | .dir st _ => .d st

/-- Shape of the node at a literal path. -/
def shapeAt (n : FSNode) (p : Path) : Option Shape :=
  (lookupPath n p).map shapeOf

/-- Shape of what the symlink at `p` resolves to. -/
def resolvedShapeAt (n : FSNode) (p : Path) : Option Shape :=
  match lookupPath n p with
  | some (.symlink _ r) => (r.bind resolveNode).map shapeOf
  | _ => none

/-! ### Directory walker (`util.recursive_scandir`)

`recursive_scandir(top_dir, dir_first)` yields `(relpath, entry)` pairs;
the top directory itself is excluded.  The recursion test is
`entry.is_dir()`, which follows symlinks, so a symlink whose target is a
directory is recursed into (via `os.scandir`, which also follows it). -/

mutual

/-- Yields produced for a single directory entry at path `p`. -/
def walkNode (b : Bool) (p : Path) : FSNode → List (Path × FSNode)
  | .file st c => [(p, .file st c)]
  | .dir st es =>
    (if b then [(p, FSNode.dir st es)] else []) ++ walkList b p es ++
      (if b then [] else [(p, FSNode.dir st es)])
  | .symlink t r =>
    match walkRes b p r with
    | none => [(p, .symlink t r)]
    | some inner =>
      (if b then [(p, FSNode.symlink t r)] else []) ++ inner ++
        (if b then [] else [(p, FSNode.symlink t r)])

/-- Yields of the entries behind a symlink's resolution, when the target
is a directory. -/
def walkRes (b : Bool) (p : Path) : Option FSNode → Option (List (Path × FSNode))
  | none => none
  | some (.file _ _) => none
  | some (.dir _ es) => some (walkList b p es)
  | some (.symlink _ r) => walkRes b p r

/-- Yields of an entry list whose directory sits at `rp`. -/
def walkList (b : Bool) (rp : Path) : List (String × FSNode) → List (Path × FSNode)
  | [] => []
  | (n, nd) :: rest => walkNode b (rp ++ [n]) nd ++ walkList b rp rest

end

/-- `util.recursive_scandir(top_dir, dir_first)`: the walk of the tree
rooted at `root` (which `os.scandir` requires to resolve to a
directory). -/
def recursive_scandir (b : Bool) (root : FSNode) : List (Path × FSNode) :=
  walkList b [] ((entriesOfF root).getD [])

/-! ### Filename sanitization (`SanitizeFilenameProfile`) -/

/-- `SanitizeFilenameProfile._forbidden_chars_map`: code points 0x00-0x1F
are deleted, except tab/line feed/carriage return which become `_`; the
nine characters forbidden by Windows become `_`; everything else is
untouched (`none`). -/
def forbiddenRepl (c : Char) : Option String :=
  if c.toNat ≤ 0x1F then
    if c.toNat = 0x09 ∨ c.toNat = 0x0A ∨ c.toNat = 0x0D then some "_" else some ""
  else if c = '"' ∨ c = '*' ∨ c = '/' ∨ c = ':' ∨ c = '<' ∨ c = '>' ∨ c = '?' ∨
      c = '\\' ∨ c = '|' then
    some "_"
  else none

/-- A character the sanitizer deletes outright (maps to the empty
replacement). -/
def isDeletedChar (c : Char) : Bool :=
  forbiddenRepl c = some ""

/-- `str.translate` with the forbidden-characters map. -/
def translateName (s : String) : String :=
  String.join (s.toList.map fun c => (forbiddenRepl c).getD (String.mk [c]))

/-- `str.partition('.')`: split at the first dot. -/
def partDot : List Char → List Char × List Char × List Char
  | [] => ([], [], [])
  | c :: rest =>
    if c = '.' then ([], ['.'], rest)
    else
      let (b, d, e) := partDot rest
      (c :: b, d, e)

/-- `str.casefold`, restricted to the ASCII range exercised by the
reserved-name table and the tests (full Unicode case folding agrees with
lower-casing there). -/
def casefoldStr (s : String) : String :=
  String.mk (s.toList.map Char.toLower)

/-- `SanitizeFilenameProfile._reserved_names` (already casefolded, as the
source builds the set with `s.casefold()`). -/
def reservedNames : List String :=
  ["con", "prn", "aux", "nul",
   "com1", "com2", "com3", "com4", "com5", "com6", "com7", "com8", "com9",
   "lpt1", "lpt2", "lpt3", "lpt4", "lpt5", "lpt6", "lpt7", "lpt8", "lpt9"]

/-- `SanitizeFilenameProfile._sanitize_name`. -/
def sanitize_name (filename : String) : String :=
  let sanitized := translateName filename
  let sanitized := if sanitized = "." ∨ sanitized = ".." then sanitized ++ "_" else sanitized
  let (b, d, e) := partDot sanitized.toList
  let basename := String.mk b
  let basename :=
    if casefoldStr basename ∈ reservedNames then basename ++ "_" else basename
  let sanitized := basename ++ String.mk d ++ String.mk e
  let l := sanitized.toList
  if l ≠ [] ∧ (l.getLast? = some '.' ∨ l.getLast? = some ' ') then
    String.mk (l.dropLast ++ ['_'])
  else
    sanitized

/-- `SanitizeFilenameProfile._sanitize_cb`: sanitize every entry of a
directory, pairing it with its renamed destination path, and raise on a
case-folded duplicate. -/
def sanitize_cb (dstRel : Path) (contents : List (String × FSNode)) :
    Except String (List (String × Option Path)) :=
  go contents []
where
  /-- Loop over `contents`, carrying the case-folded names seen so far. -/
  go : List (String × FSNode) → List String → Except String (List (String × Option Path))
    | [], _ => .ok []
    | (n, _) :: rest, seen =>
      let sanitizedName := sanitize_name n
      let sanitizedRelpath := dstRel ++ [sanitizedName]
      let casefoldedName := casefoldStr sanitizedName
      if casefoldedName ∈ seen then
        .error ("Sanitizing would create duplicate file: " ++ pathStr sanitizedRelpath)
      else
        (go rest (casefoldedName :: seen)).map
          fun keep => (n, some sanitizedRelpath) :: keep

/-! ### Filter profile (`FilterProfile`) -/

/-- The `select_cb` contract of `FilterProfile`: given the source- and
destination-relative directory paths and the directory contents, return
the entries to keep, each identified by its name in `contents` and
optionally paired with a new destination-relative path (keep and
rename).  A raised exception is an `Except.error`. -/
abbrev SelectCb := Path → Path → List (String × FSNode) → Except String (List (String × Option Path))

/-- `FilterProfile.clean` on the contents of the directory at `rp`:
symlinks are removed, directories are recursed into and then removed
(now empty), anything else raises `RuntimeError('Cannot clean %r' %
relpath)`; the mutation-so-far is kept alongside the error. -/
def filterClean (rp : Path) : List (String × FSNode) → List (String × FSNode) × Option String
  | [] => ([], none)
  | (n, nd) :: rest =>
    match nd with
    | .symlink _ _ => filterClean rp rest
    | .dir st es =>
      let (es', err) := filterClean (rp ++ [n]) es
      match err with
      | some e => ((n, .dir st es') :: rest, some e)
      | none => filterClean rp rest
    | .file st c =>
      ((n, .file st c) :: rest, some ("Cannot clean " ++ pathStr rp))

/-- Replace the stat of the literal directory at `p` (the write part of
`shutil.copystat(src, dst)` when `dst` is a directory); identity when no
literal directory sits there. -/
def setDirStatAt : FSNode → Path → Stat → FSNode
  | .dir _ es, [], st => .dir st es
  | .dir s es, c :: rest, st =>
    match findEntry es c with
    | some m => .dir s (setEntry es c (setDirStatAt m rest st))
    | none => .dir s es
  | t, _, _ => t

/-- Resolution never grows a node (termination helper). -/
def sizeOf_resolveNode_le (n : FSNode) (m : FSNode) (h : resolveNode n = some m) :
    sizeOf m ≤ sizeOf n := by
  match n with
  | .file st c => simp [resolveNode] at h; simp [← h]
  | .dir st es => simp [resolveNode] at h; simp [← h]
  | .symlink t none => simp [resolveNode] at h
  | .symlink t (some w) =>
    have ih := sizeOf_resolveNode_le w m (by simpa [resolveNode] using h)
    simp
    omega

/-- A found entry is a member of the list (termination helper). -/
def findEntry_some_mem (es : List (String × FSNode)) (c : String) (m : FSNode)
    (h : findEntry es c = some m) : (c, m) ∈ es := by
  match es with
  | [] => simp [findEntry] at h
  | (a, w) :: rest =>
    simp only [findEntry] at h
    split at h
    · rename_i hc
      cases h
      subst hc
      exact List.mem_cons_self _ _
    · exact List.mem_cons_of_mem _ (findEntry_some_mem rest c m h)

/-- A found entry is smaller than its list (termination helper). -/
def sizeOf_findEntry_lt (es : List (String × FSNode)) (c : String) (m : FSNode)
    (h : findEntry es c = some m) : sizeOf m < sizeOf es := by
  have hm := findEntry_some_mem es c m h
  have h1 : sizeOf (c, m) < sizeOf es := List.sizeOf_lt_of_mem hm
  have h2 : sizeOf m < sizeOf (c, m) := by simp
  omega

/-- Entries behind a resolution are smaller than the node (termination helper). -/
def sizeOf_resolved_entries_lt (n : FSNode) (st : Stat) (es : List (String × FSNode))
    (h : resolveNode n = some (.dir st es)) : sizeOf es < sizeOf n := by
  have h2 : sizeOf (FSNode.dir st es) ≤ sizeOf n := sizeOf_resolveNode_le _ _ h
  have h3 : sizeOf es < sizeOf (FSNode.dir st es) := by simp
  omega

mutual

/-- `FilterProfile.filter_dir(src_relpath, dst_relpath)`: scan the
source directory (`srcNode`, which must resolve to a directory), ask the
selection callback which entries to keep, process them, and finally copy
the source directory's stats onto the destination directory if it exists
(`dst_relpath` non-empty).  Returns the updated destination tree, the
list of `(src_relpath, dst_relpath, stat)` stat-copies performed, and an
optional error. -/
def filter_dir (sel : SelectCb) (d0 : Stat) (srcNode : FSNode) (srcRel dstRel : Path)
    (dst : FSNode) : FSNode × List (Path × Path × Stat) × Option String :=
  match hr : resolveNode srcNode with
  | some (.dir sst contents) =>
    (match sel srcRel dstRel contents with
     | .error e => (dst, [], some e)
     | .ok keep =>
       match filterItems sel d0 srcNode contents srcRel dstRel keep dst with
       | (dst', stamps, some e) => (dst', stamps, some e)
       | (dst', stamps, none) =>
         if dstRel ≠ [] ∧ (lookupPath dst' dstRel).any isDirF then
           (setDirStatAt dst' dstRel sst, stamps ++ [(srcRel, dstRel, sst)], none)
         else
           (dst', stamps, none))
  | _ => (dst, [], some ("NotADirectoryError: " ++ pathStr srcRel))
termination_by (sizeOf srcNode, 0)
decreasing_by
  · exact Prod.Lex.left _ _ (sizeOf_resolved_entries_lt _ _ _ hr)

/-- The keep-list loop inside `filter_dir`.  Each item names an entry of
`contents` (the callback contract) with an optional rename target. -/
def filterItems (sel : SelectCb) (d0 : Stat) (srcNode : FSNode)
    (contents : List (String × FSNode)) (srcRel dstRel : Path)
    (items : List (String × Option Path)) (dst : FSNode) :
    FSNode × List (Path × Path × Stat) × Option String :=
  match items with
  | [] => (dst, [], none)
  | (name, ren) :: rest =>
    let srcEntryRel := srcRel ++ [name]
    let dstEntryRel := ren.getD (dstRel ++ [name])
    if dstEntryRel.dropLast ≠ dstRel then
      (dst, [],
        some ("Renaming across dirs is not supported: " ++ pathStr srcEntryRel ++
          " -> " ++ pathStr dstEntryRel ++ " in directory " ++ pathStr srcRel ++
          " -> " ++ pathStr dstRel))
    else
      match hf : findEntry contents name with
      | none => filterItems sel d0 srcNode contents srcRel dstRel rest dst
      | some child =>
        if isDirF child then
          match filter_dir sel d0 child srcEntryRel dstEntryRel dst with
          | (dst', stamps, some e) => (dst', stamps, some e)
          | (dst', stamps, none) =>
            match filterItems sel d0 srcNode contents srcRel dstRel rest dst' with
            | (dst'', stamps', err) => (dst'', stamps ++ stamps', err)
        else
          match makedirs d0 dst dstRel with
          | none => (dst, [], some ("makedirs failed: " ++ pathStr dstRel))
          | some dst' =>
            match lookupPath dst' dstEntryRel with
            | some _ => (dst', [], some ("FileExistsError: " ++ pathStr dstEntryRel))
            | none =>
              match setAtPath dst' dstEntryRel
                  (.symlink (pathStr srcEntryRel) (resolveNode child)) with
              | none => (dst', [], some ("symlink failed: " ++ pathStr dstEntryRel))
              | some dst'' => filterItems sel d0 srcNode contents srcRel dstRel rest dst''
termination_by (sizeOf contents, items.length)
decreasing_by
  · exact Prod.Lex.right _ (by simp)
  · exact Prod.Lex.left _ _ (sizeOf_findEntry_lt _ _ _ hf)
  · exact Prod.Lex.right _ (by simp)
  · exact Prod.Lex.right _ (by simp)

end

/-- `FilterProfile.generate`: clean the destination's contents, then
filter from the root directory downwards. -/
def FilterProfile_generate (sel : SelectCb) (d0 : Stat) (src dst : FSNode) :
    FSNode × List (Path × Path × Stat) × Option String :=
  match dst with
  | .dir st es =>
    match filterClean [] es with
    | (es', some e) => (.dir st es', [], some e)
    | (es', none) => filter_dir sel d0 src [] [] (.dir st es')
  | _ => (dst, [], some "NotADirectoryError: destination")

/-- `SanitizeFilenameProfile.generate`: a `FilterProfile` whose selection
callback is `_sanitize_cb`. -/
def SanitizeProfile_generate (d0 : Stat) (src dst : FSNode) :
    FSNode × List (Path × Path × Stat) × Option String :=
  FilterProfile_generate (fun _ dstRel contents => sanitize_cb dstRel contents) d0 src dst

/-! ### Convert profile (`ConvertProfile`) -/

/-- The `select_cb` contract of `ConvertProfile`: a source-relative file
path is mapped to the destination-relative path of its converted form,
or `none` to symlink it unchanged. -/
abbrev ConvSel := Path → Option Path

/-- The `convert_cb` contract: deterministic conversion producing the
destination file's bytes from the source path, destination path and
source bytes (the real callback reads the source itself; on success it
leaves a complete file at the destination). -/
abbrev ConvCb := Path → Path → String → String

/-- Remove the existing entry at `p`; `lookupPath` has just found it, so
this cannot fail on the trees the pass builds, but a `none` is still
surfaced as an error. -/
def removeExisting (t : FSNode) (p : Path) : Option FSNode :=
  removeAtPath t p

/-- One iteration of `ConvertProfile.select_and_symlink` for the walked
source entry `(srcRel, srcNode)`: mutate the destination and produce the
`(src_relpath, dst_relpath, convert)` yield, or an error. -/
def selectStep (sel : ConvSel) (d0 : Stat) (srcRel : Path) (srcNode : FSNode)
    (dst : FSNode) : FSNode × Except String (Path × Path × Bool) :=
  if isDirF srcNode then
    -- directory: drop any non-directory (or symlink) in the way, then create it
    let step1 :=
      match lookupPath dst srcRel with
      | some m =>
        if ¬ isDirF m ∨ isLink m then
          match removeExisting dst srcRel with
          | some t => Except.ok t
          | none => Except.error ("remove failed: " ++ pathStr srcRel)
        else Except.ok dst
      | none => Except.ok dst
    match step1 with
    | .error e => (dst, .error e)
    | .ok dst1 =>
      match makedirs d0 dst1 srcRel with
      | none => (dst1, .error ("makedirs failed: " ++ pathStr srcRel))
      | some dst2 => (dst2, .ok (srcRel, srcRel, false))
  else
    match sel srcRel with
    | none =>
      -- symlink branch: remove whatever is there (recursively for a real
      -- directory, plainly otherwise) and place a fresh relative symlink
      let step1 :=
        match lookupPath dst srcRel with
        | some _ =>
          match removeExisting dst srcRel with
          | some t => Except.ok t
          | none => Except.error ("remove failed: " ++ pathStr srcRel)
        | none => Except.ok dst
      match step1 with
      | .error e => (dst, .error e)
      | .ok dst1 =>
        match setAtPath dst1 srcRel (.symlink (pathStr srcRel) (resolveNode srcNode)) with
        | none => (dst1, .error ("symlink failed: " ++ pathStr srcRel))
        | some dst2 => (dst2, .ok (srcRel, srcRel, false))
    | some dstRel =>
      -- convert branch: the staleness test against the existing destination
      match lookupPath dst dstRel with
      | none => (dst, .ok (srcRel, dstRel, true))
      | some m =>
        match statFollow srcNode with
        | none => (dst, .error ("stat failed: " ++ pathStr srcRel))
        | some sst =>
          match m with
          | .file fst _ =>
            if fst.mtime = sst.mtime ∧ fst.mtimeNs = sst.mtimeNs then
              (dst, .ok (srcRel, dstRel, false))
            else
              match removeExisting dst dstRel with
              | some t => (t, .ok (srcRel, dstRel, true))
              | none => (dst, .error ("remove failed: " ++ pathStr dstRel))
          | _ =>
            -- a directory is rmtree'd; anything else is os.remove'd
            match removeExisting dst dstRel with
            | some t => (t, .ok (srcRel, dstRel, true))
            | none => (dst, .error ("remove failed: " ++ pathStr dstRel))

/-- `ConvertProfile.convert_one`: the conversion callback writes the
destination file, then `shutil.copystat` stamps the source's stats
(mode, mtime — the staleness signal for the next run) onto it. -/
def convert_one (conv : ConvCb) (src : FSNode) (dst : FSNode) (srcRel dstRel : Path) :
    FSNode × Option String :=
  match lookupF src srcRel with
  | none => (dst, some ("convert_cb failed: missing source " ++ pathStr srcRel))
  | some n =>
    match resolveNode n with
    | some (.file sst content) =>
      match lookupPath dst dstRel with
      | some (.dir _ _) =>
        (dst, some ("convert_cb failed: destination is a directory " ++ pathStr dstRel))
      | _ =>
        match setAtPath dst dstRel (.file sst (conv srcRel dstRel content)) with
        | none => (dst, some ("convert_cb failed: " ++ pathStr dstRel))
        | some dst' => (dst', none)
    | _ => (dst, some ("convert_cb failed: unreadable source " ++ pathStr srcRel))

/-- State threaded through `ConvertProfile.convert`: the destination
tree, the yields of `select_and_symlink` so far, the
`relpath_dst_to_src` map in insertion order, the conversion tasks
submitted to the pool but not yet executed, and the conversion
invocations performed so far. -/
structure CState where
  dst : FSNode
  ys : List (Path × Path × Bool)
  seen : List (Path × Path)
  pending : List (Path × Path)
  invoked : List (Path × Path)
deriving Repr

/-- The loop body of `ConvertProfile.convert`: drive the
`select_and_symlink` generator, check each yield against the
`relpath_dst_to_src` map (raising on a duplicate destination), and
submit conversion tasks to the pool.  `eager = true` models a pool
schedule whose workers start a task at submission; `eager = false`
models workers that only run at the final result-collection barrier.
Both are legal behaviours of `multiprocessing.Pool`. -/
def convertLoop (eager : Bool) (conv : ConvCb) (sel : ConvSel) (d0 : Stat) (src : FSNode) :
    List (Path × FSNode) → CState → CState × Option String
  | [], st => (st, none)
  | (srcRel, srcNode) :: rest, st =>
    match selectStep sel d0 srcRel srcNode st.dst with
    | (dst', .error e) => ({st with dst := dst'}, some e)
    | (dst', .ok (s, d, flag)) =>
      if (st.seen.map Prod.fst).contains d then
        ({st with dst := dst'}, some ("Duplicate destination path " ++ pathStr d))
      else
        let st1 : CState :=
          { st with dst := dst', ys := st.ys ++ [(s, d, flag)], seen := st.seen ++ [(d, s)] }
        if flag then
          if eager then
            match convert_one conv src st1.dst s d with
            | (dst'', some e) =>
              ({st1 with dst := dst'', invoked := st1.invoked ++ [(s, d)]}, some e)
            | (dst'', none) =>
              convertLoop eager conv sel d0 src rest
                {st1 with dst := dst'', invoked := st1.invoked ++ [(s, d)]}
          else
            convertLoop eager conv sel d0 src rest {st1 with pending := st1.pending ++ [(s, d)]}
        else
          convertLoop eager conv sel d0 src rest st1

/-- Execute the pool tasks at the result-collection barrier, in
submission order; the trace of invocations is returned alongside. -/
def runPending (conv : ConvCb) (src : FSNode) :
    List (Path × Path) → FSNode → (FSNode × List (Path × Path)) × Option String
  | [], dst => ((dst, []), none)
  | (s, d) :: rest, dst =>
    match convert_one conv src dst s d with
    | (dst', some e) => ((dst', [(s, d)]), some e)
    | (dst', none) =>
      match runPending conv src rest dst' with
      | ((dst'', inv), err) => ((dst'', (s, d) :: inv), err)

/-- `ConvertProfile.convert`: drive the generator, then wait for every
conversion task.  The keep set it returns is `st.seen.map Prod.fst`
(the keys of `relpath_dst_to_src`). -/
def ConvertProfile_convert (eager : Bool) (conv : ConvCb) (sel : ConvSel) (d0 : Stat)
    (src dst : FSNode) : CState × Option String :=
  match entriesOfF src with
  | none => (⟨dst, [], [], [], []⟩, some "NotADirectoryError: source")
  | some es =>
    match convertLoop eager conv sel d0 src (walkList true [] es) ⟨dst, [], [], [], []⟩ with
    | (st, some e) => (st, some e)
    | (st, none) =>
      match runPending conv src st.pending st.dst with
      | ((dst', inv), err) =>
        ({st with dst := dst', pending := [], invoked := st.invoked ++ inv}, err)

mutual

/-- `ConvertProfile.clean` on a single walked entry at path `p`: the
post-order walk visits children first; an entry whose path is not in the
keep set is removed (`os.rmdir` for a real directory — failing if it is
still non-empty — `os.remove` otherwise). -/
def cleanOneC (keep : List Path) (p : Path) : FSNode → Option FSNode × Option String
  | .file st c =>
    if keep.contains p then (some (.file st c), none) else (none, none)
  | .symlink t r =>
    -- the walker recurses through a symlink that resolves to a directory,
    -- so removals beneath it act on the link target
    match cleanResC keep p r with
    | (r', some e) => (some (.symlink t r'), some e)
    | (r', none) =>
      if keep.contains p then (some (.symlink t r'), none) else (none, none)
  | .dir st es =>
    match cleanEntriesC keep p es with
    | (es', some e) => (some (.dir st es'), some e)
    | (es', none) =>
      if keep.contains p then (some (.dir st es'), none)
      else if es'.isEmpty then (none, none)
      else (some (.dir st es'), some ("rmdir: directory not empty: " ++ pathStr p))

/-- Walk through a symlink's resolution chain for `cleanOneC`. -/
def cleanResC (keep : List Path) (p : Path) : Option FSNode → Option FSNode × Option String
  | none => (none, none)
  | some (.file st c) => (some (.file st c), none)
  | some (.dir st es) =>
    match cleanEntriesC keep p es with
    | (es', err) => (some (.dir st es'), err)
  | some (.symlink t r) =>
    match cleanResC keep p r with
    | (r', err) => (some (.symlink t r'), err)

/-- `ConvertProfile.clean` over the entries of the directory at `rp`. -/
def cleanEntriesC (keep : List Path) (rp : Path) :
    List (String × FSNode) → List (String × FSNode) × Option String
  | [] => ([], none)
  | (n, nd) :: rest =>
    match cleanOneC keep (rp ++ [n]) nd with
    | (kept, some e) =>
      ((match kept with | some nd' => (n, nd') :: rest | none => rest), some e)
    | (kept, none) =>
      match cleanEntriesC keep rp rest with
      | (rest', err) =>
        ((match kept with | some nd' => (n, nd') :: rest' | none => rest'), err)

end

/-- `ConvertProfile.clean(dst_keep)`: post-order walk of the destination
tree, removing everything whose destination-relative path is not in the
keep set. -/
def ConvertProfile_clean (keep : List Path) (dst : FSNode) : FSNode × Option String :=
  match dst with
  | .dir st es =>
    match cleanEntriesC keep [] es with
    | (es', err) => (.dir st es', err)
  | _ => (dst, some "NotADirectoryError: destination")

mutual

/-- `util.fix_dir_stats` on one walked entry at path `p`: a directory
(or a symlink resolving to one) gets the stats of the source node at the
same relative path copied onto it (`shutil.copystat` follows symlinks on
both sides), and its contents are walked. -/
def fixOne (src : FSNode) (p : Path) : FSNode → FSNode × Option String
  | .file st c => (.file st c, none)
  | .symlink t r =>
    if isDirF (.symlink t r) then
      -- copystat through the link stamps the target; the walk then
      -- recurses into the target's entries
      match (lookupF src p).bind statFollow with
      | none => (.symlink t r, some ("copystat failed: " ++ pathStr p))
      | some sst =>
        match fixResE src p sst r with
        | (r', err) => (.symlink t r', err)
    else (.symlink t r, none)
  | .dir dstat es =>
    match (lookupF src p).bind statFollow with
    | none => (.dir dstat es, some ("copystat failed: " ++ pathStr p))
    | some sst =>
      match fixEntries src p es with
      | (es', err) => (.dir sst es', err)

/-- Stat-stamp and recurse through a symlink's resolution chain for
`fixOne`. -/
def fixResE (src : FSNode) (p : Path) (sst : Stat) :
    Option FSNode → Option FSNode × Option String
  | none => (none, none)
  | some (.file st c) => (some (.file st c), none)
  | some (.dir _ es) =>
    match fixEntries src p es with
    | (es', err) => (some (.dir sst es'), err)
  | some (.symlink t r) =>
    match fixResE src p sst r with
    | (r', err) => (some (.symlink t r'), err)

/-- `util.fix_dir_stats` over the entries of the directory at `rp`. -/
def fixEntries (src : FSNode) (rp : Path) :
    List (String × FSNode) → List (String × FSNode) × Option String
  | [] => ([], none)
  | (n, nd) :: rest =>
    match fixOne src (rp ++ [n]) nd with
    | (nd', some e) => ((n, nd') :: rest, some e)
    | (nd', none) =>
      match fixEntries src rp rest with
      | (rest', err) => ((n, nd') :: rest', err)

end

/-- `util.fix_dir_stats(profile)` on the destination root. -/
def fix_dir_stats (src dst : FSNode) : FSNode × Option String :=
  match dst with
  | .dir st es =>
    match fixEntries src [] es with
    | (es', err) => (.dir st es', err)
  | _ => (dst, some "NotADirectoryError: destination")

/-- `ConvertProfile.generate`: convert, clean with the returned keep
set, then fix the directory stats. -/
def ConvertProfile_generate (eager : Bool) (conv : ConvCb) (sel : ConvSel) (d0 : Stat)
    (src dst : FSNode) : FSNode × Option String :=
  match ConvertProfile_convert eager conv sel d0 src dst with
  | (st, some e) => (st.dst, some e)
  | (st, none) =>
    match ConvertProfile_clean (st.seen.map Prod.fst) st.dst with
    | (dst2, some e) => (dst2, some e)
    | (dst2, none) => fix_dir_stats src dst2

/-! ### Well-formedness and auxiliary lookup -/

/-- Entry names in strictly increasing order (real directories list each
name once; sorted is the canonical listing order of the model). -/
def namesSorted : List String → Bool
  | [] => true
  | [_] => true
  | a :: b :: rest => strLt a b && namesSorted (b :: rest)

mutual

/-- Well-formed node: every directory entry list (also behind symlink
resolutions) is strictly sorted by name. -/
def wfNode : FSNode → Bool
  | .file _ _ => true
  | .symlink _ none => true
  | .symlink _ (some m) => wfNode m
  | .dir _ es => namesSorted (es.map Prod.fst) && wfList es

/-- Well-formedness of an entry list. -/
def wfList : List (String × FSNode) → Bool
  | [] => true
  | (_, nd) :: rest => wfNode nd && wfList rest

end

/-- `lookupF` starting from an entry list (the contents of the walked
directory). -/
def lookupEsF (es : List (String × FSNode)) : Path → Option FSNode
  | [] => none
  | c :: rest =>
    match findEntry es c with
    | some m => lookupF m rest
    | none => none

/-- Literal paths of the regular files beneath an entry list whose
directory sits at `rp` (what "user data" cleanup must never delete). -/
def filePathsList (rp : Path) : List (String × FSNode) → List Path
  | [] => []
  | (n, nd) :: rest =>
    (match nd with
     | .file _ _ => [rp ++ [n]]
     | .dir _ es => filePathsList (rp ++ [n]) es
     | .symlink _ _ => []) ++ filePathsList rp rest

/-! ### Concrete instances used in statements and witnesses -/

/-- Stats of fresh directories in example runs. -/
def exD0 : Stat := ⟨7, 0, 0⟩

/-- An empty destination root. -/
def emptyDst : FSNode := .dir ⟨5, 5, 5⟩ []

/-- Source directory of the sanitization scenario. -/
def sanitizeSrc : FSNode :=
  .dir ⟨1, 2, 3⟩
    [(":", .file ⟨1, 10, 100⟩ "a"), ("CON", .file ⟨1, 11, 110⟩ "b"),
     ("lpt2.txt", .file ⟨1, 12, 120⟩ "c"), ("foo.", .file ⟨1, 13, 130⟩ "d"),
     ("ok", .file ⟨1, 14, 140⟩ "e")]

/-- Source directory with two names that case-fold to the same result. -/
def sanitizeSrcAa : FSNode :=
  .dir ⟨1, 2, 3⟩ [("A", .file ⟨1, 10, 100⟩ "a"), ("a", .file ⟨1, 11, 110⟩ "b")]

/-- A directory containing a symlink that resolves to a directory. -/
def walkLinkDirEx : FSNode :=
  .dir ⟨1, 2, 3⟩
    [("l", .symlink "t" (some (.dir ⟨4, 5, 6⟩ [("a", .file ⟨7, 8, 9⟩ "x")])))]

/-- Example conversion callback: append a marker to the source bytes. -/
def exConv : ConvCb := fun _ _ c => c ++ "!"

/-- Source file for the staleness-oracle witness. -/
def c2Src : FSNode := .file ⟨6, 10, 100⟩ "x"

/-- Selection for the staleness-oracle witness. -/
def c2Sel : ConvSel := fun p => if p = ["a"] then some ["o"] else none

/-- Destination for the staleness-oracle witness: the existing `o` is a
regular file whose two timestamp components match the source (its mode
differs, which must not matter). -/
def c2Dst : FSNode := .dir ⟨5, 5, 5⟩ [("o", .file ⟨9, 10, 100⟩ "old")]

/-- Source directory of the cross-directory rename scenario. -/
def c6Src : FSNode := .dir ⟨1, 1, 1⟩ [("a", .file ⟨2, 2, 2⟩ "A"), ("b", .file ⟨3, 3, 3⟩ "B")]

/-- Selection keeping `a` in place and renaming `b` into another
directory. -/
def c6Sel : SelectCb := fun _ _ _ => .ok [("a", none), ("b", some ["other", "b"])]

/-- Source tree of the duplicate-destination scenario. -/
def dupSrc : FSNode :=
  .dir ⟨1, 1, 1⟩ [("a", .file ⟨6, 10, 100⟩ "A"), ("b", .file ⟨6, 20, 200⟩ "B")]

/-- Selection mapping both `a` and `b` to the same destination `out`. -/
def dupSel : ConvSel := fun p =>
  if p = ["a"] ∨ p = ["b"] then some ["out"] else none

/-- Literal lookup of a non-empty path inside an entry list. -/
def lookupEs (es : List (String × FSNode)) : Path → Option FSNode
  | [] => none
  | c :: rest =>
    match findEntry es c with
    | some m => lookupPath m rest
    | none => none

/-- Selection of the keep-set/cleanup scenario: symlink everything. -/
def c1Sel : ConvSel := fun _ => none

/-- Destination after the keep-set scenario's pass (both files
symlinked). -/
def c1Dst : FSNode :=
  .dir ⟨5, 5, 5⟩
    [("a", .symlink "a" (some (.file ⟨6, 10, 100⟩ "A"))),
     ("b", .symlink "b" (some (.file ⟨6, 20, 200⟩ "B")))]

/-- Final convert state of the keep-set scenario. -/
def c1St : CState :=
  ⟨c1Dst, [(["a"], ["a"], false), (["b"], ["b"], false)],
    [(["a"], ["a"]), (["b"], ["b"])], [], []⟩

theorem translateName_all_deleted (l : List Char) (h : ∀ c ∈ l, isDeletedChar c) :
    String.join (l.map fun c => (forbiddenRepl c).getD (String.mk [c])) = "" := by
  induction l with
  | nil => rfl
  | cons c rest ih =>
    have hc : forbiddenRepl c = some "" := by
      have := h c (List.mem_cons_self _ _)
      simpa [isDeletedChar] using this
    have hrest := ih (fun c' hc' => h c' (List.mem_cons_of_mem _ hc'))
    simp only [List.map_cons, String.join, List.foldl_cons, hc, Option.getD_some]
    simpa [String.join] using hrest

theorem sanitize_name_all_deleted (s : String) (h : ∀ c ∈ s.toList, isDeletedChar c) :
    sanitize_name s = "" := by
  have ht : translateName s = "" := translateName_all_deleted s.toList h
  simp [sanitize_name, ht, partDot, casefoldStr, reservedNames]

set_option maxHeartbeats 1600000 in
/-- C8.  The sanitization scenario: `:` ↦ `_`, `CON` ↦ `CON_`,
`lpt2.txt` ↦ `lpt2_.txt`, `foo.` ↦ `foo_`, `ok` ↦ `ok`; running the
Sanitize Variant on a directory with exactly those five entries succeeds
and produces exactly those five destination names, each a symlink whose
target is the corresponding original file; and a source directory
containing both `A` and `a` fails with a duplicate-name error. -/
theorem c8_sanitize_scenario :
    sanitize_name ":" = "_" ∧ sanitize_name "CON" = "CON_" ∧
    sanitize_name "lpt2.txt" = "lpt2_.txt" ∧ sanitize_name "foo." = "foo_" ∧
    sanitize_name "ok" = "ok" ∧
    (SanitizeProfile_generate exD0 sanitizeSrc emptyDst).2.2 = none ∧
    flatPaths (SanitizeProfile_generate exD0 sanitizeSrc emptyDst).1 =
      [["CON_"], ["_"], ["foo_"], ["lpt2_.txt"], ["ok"]] ∧
    shapeAt (SanitizeProfile_generate exD0 sanitizeSrc emptyDst).1 ["_"] = some (.l ":") ∧
    resolvedShapeAt (SanitizeProfile_generate exD0 sanitizeSrc emptyDst).1 ["_"] =
      some (.f ⟨1, 10, 100⟩ "a") ∧
    shapeAt (SanitizeProfile_generate exD0 sanitizeSrc emptyDst).1 ["CON_"] =
      some (.l "CON") ∧
    resolvedShapeAt (SanitizeProfile_generate exD0 sanitizeSrc emptyDst).1 ["CON_"] =
      some (.f ⟨1, 11, 110⟩ "b") ∧
    shapeAt (SanitizeProfile_generate exD0 sanitizeSrc emptyDst).1 ["lpt2_.txt"] =
      some (.l "lpt2.txt") ∧
    resolvedShapeAt (SanitizeProfile_generate exD0 sanitizeSrc emptyDst).1 ["lpt2_.txt"] =
      some (.f ⟨1, 12, 120⟩ "c") ∧
    shapeAt (SanitizeProfile_generate exD0 sanitizeSrc emptyDst).1 ["foo_"] =
      some (.l "foo.") ∧
    resolvedShapeAt (SanitizeProfile_generate exD0 sanitizeSrc emptyDst).1 ["foo_"] =
      some (.f ⟨1, 13, 130⟩ "d") ∧
    shapeAt (SanitizeProfile_generate exD0 sanitizeSrc emptyDst).1 ["ok"] =
      some (.l "ok") ∧
    resolvedShapeAt (SanitizeProfile_generate exD0 sanitizeSrc emptyDst).1 ["ok"] =
      some (.f ⟨1, 14, 140⟩ "e") ∧
    (SanitizeProfile_generate exD0 sanitizeSrcAa emptyDst).2.2 =
      some "Sanitizing would create duplicate file: a" := by
  have hgen : SanitizeProfile_generate exD0 sanitizeSrc emptyDst =
      (.dir ⟨5, 5, 5⟩
        [("CON_", .symlink "CON" (some (.file ⟨1, 11, 110⟩ "b"))),
         ("_", .symlink ":" (some (.file ⟨1, 10, 100⟩ "a"))),
         ("foo_", .symlink "foo." (some (.file ⟨1, 13, 130⟩ "d"))),
         ("lpt2_.txt", .symlink "lpt2.txt" (some (.file ⟨1, 12, 120⟩ "c"))),
         ("ok", .symlink "ok" (some (.file ⟨1, 14, 140⟩ "e")))],
       [], none) := by
    simp +decide [SanitizeProfile_generate, FilterProfile_generate, filterClean,
      filter_dir.eq_def, filterItems.eq_def, sanitize_cb, sanitize_cb.go, sanitizeSrc,
      emptyDst, exD0, resolveNode, sanitize_name, translateName, forbiddenRepl, partDot,
      casefoldStr, reservedNames, pathStr, findEntry, setEntry, removeEntry, lookupPath,
      setAtPath, makedirs, entriesOfF, isDirF, isLink, String.intercalate, setDirStatAt,
      statFollow, nodeStat, Except.map]
  have hgenAa : (SanitizeProfile_generate exD0 sanitizeSrcAa emptyDst).2.2 =
      some "Sanitizing would create duplicate file: a" := by
    simp +decide [SanitizeProfile_generate, FilterProfile_generate, filterClean,
      filter_dir.eq_def, filterItems.eq_def, sanitize_cb, sanitize_cb.go, sanitizeSrcAa,
      emptyDst, exD0, resolveNode, sanitize_name, translateName, forbiddenRepl, partDot,
      casefoldStr, reservedNames, pathStr, findEntry, setEntry, removeEntry, lookupPath,
      setAtPath, makedirs, entriesOfF, isDirF, isLink, String.intercalate, setDirStatAt,
      statFollow, nodeStat, Except.map]
  refine ⟨by decide, by decide, by decide, by decide, by decide, ?_, ?_, ?_, ?_, ?_, ?_,
    ?_, ?_, ?_, ?_, ?_, ?_, hgenAa⟩ <;>
    simp +decide [hgen, shapeAt, shapeOf, resolvedShapeAt, flatPaths, flatPaths.flatList,
      lookupPath, findEntry, resolveNode]

/-- C10.  A filename made solely of characters the sanitizer deletes
sanitizes to the empty string (no fallback name), so two distinct such
names in one directory collide on the (empty) case-folded result and the
selection callback aborts with the duplicate-name error. -/
theorem c10_deleted_chars_collapse (s₁ s₂ : String) (x y : FSNode) (dstRel : Path)
    (h₁ : ∀ c ∈ s₁.toList, isDeletedChar c) (h₂ : ∀ c ∈ s₂.toList, isDeletedChar c)
    (hne : s₁ ≠ s₂) :
    sanitize_name s₁ = "" ∧ sanitize_name s₂ = "" ∧
    sanitize_cb dstRel [(s₁, x), (s₂, y)] =
      .error ("Sanitizing would create duplicate file: " ++ pathStr (dstRel ++ [""])) := by
  have e₁ := sanitize_name_all_deleted s₁ h₁
  have e₂ := sanitize_name_all_deleted s₂ h₂
  refine ⟨e₁, e₂, ?_⟩
  simp [sanitize_cb, sanitize_cb.go, e₁, e₂, casefoldStr, Except.map]

/-- Witness for C10 at the concrete names `"\x01"` and `"\x02\x03"`. -/
theorem c10_deleted_chars_collapse_witness :
    sanitize_name "\x01" = "" ∧ sanitize_name "\x02\x03" = "" ∧
    sanitize_cb ["d"] [("\x01", .file ⟨1, 2, 3⟩ "a"), ("\x02\x03", .file ⟨4, 5, 6⟩ "b")] =
      .error ("Sanitizing would create duplicate file: " ++ pathStr (["d"] ++ [""])) :=
  c10_deleted_chars_collapse "\x01" "\x02\x03" (.file ⟨1, 2, 3⟩ "a") (.file ⟨4, 5, 6⟩ "b")
    ["d"] (by decide) (by decide) (by decide)

/-! ### Walker theory -/

theorem entriesOfF_symlink (t : String) (r : Option FSNode) :
    entriesOfF (.symlink t r) = r.bind entriesOfF := by
  cases r with
  | none => rfl
  | some m => rfl

theorem walkRes_eq (b : Bool) (p : Path) (r : Option FSNode) :
    walkRes b p r = (r.bind entriesOfF).map (walkList b p) := by
  match r with
  | none => rfl
  | some (.file st c) => rfl
  | some (.dir st es) => rfl
  | some (.symlink t r') =>
    have ih := walkRes_eq b p r'
    simp only [walkRes, ih, Option.bind_some, entriesOfF_symlink]
    rw [show (some (FSNode.symlink t r')).bind entriesOfF = entriesOfF (.symlink t r')
        from rfl, entriesOfF_symlink]

theorem mem_walkNode (b : Bool) (p : Path) (nd : FSNode) (q : Path) (n : FSNode) :
    (q, n) ∈ walkNode b p nd ↔
      ((q, n) = (p, nd) ∨ ∃ es, entriesOfF nd = some es ∧ (q, n) ∈ walkList b p es) := by
  match nd with
  | .file st c =>
    simp [walkNode, entriesOfF, resolveNode]
  | .dir st es =>
    cases b <;> simp [walkNode, entriesOfF, resolveNode] <;> tauto
  | .symlink t r =>
    rw [show walkNode b p (.symlink t r) =
        (match walkRes b p r with
         | none => [(p, .symlink t r)]
         | some inner =>
           (if b then [(p, FSNode.symlink t r)] else []) ++ inner ++
             (if b then [] else [(p, FSNode.symlink t r)])) from rfl]
    rw [walkRes_eq, entriesOfF_symlink]
    cases hE : r.bind entriesOfF with
    | none => simp
    | some es => cases b <;> simp <;> tauto

theorem entriesOfF_resolve (nd : FSNode) (es : List (String × FSNode))
    (h : entriesOfF nd = some es) : ∃ st, resolveNode nd = some (.dir st es) := by
  unfold entriesOfF at h
  split at h
  · rename_i st es' hr
    cases h
    exact ⟨st, hr⟩
  · cases h

theorem sizeOf_entriesOfF_lt (nd : FSNode) (es : List (String × FSNode))
    (h : entriesOfF nd = some es) : sizeOf es < sizeOf nd := by
  obtain ⟨st, hr⟩ := entriesOfF_resolve nd es h
  exact sizeOf_resolved_entries_lt nd st es hr

theorem walk_paths_shape (b : Bool) (rp : Path) (es : List (String × FSNode))
    (q : Path) (n : FSNode) (h : (q, n) ∈ walkList b rp es) :
    ∃ c r', q = rp ++ c :: r' ∧ c ∈ es.map Prod.fst := by
  match es with
  | [] => simp [walkList] at h
  | (nm, nd) :: rest =>
    rw [walkList] at h
    rcases List.mem_append.mp h with h1 | h2
    · rcases (mem_walkNode b (rp ++ [nm]) nd q n).mp h1 with heq | ⟨es', hE, hm⟩
      · refine ⟨nm, [], ?_, by simp⟩
        have : q = rp ++ [nm] := congrArg Prod.fst heq
        simpa using this
      · obtain ⟨c', r'', hq, _⟩ := walk_paths_shape b (rp ++ [nm]) es' q n hm
        exact ⟨nm, c' :: r'', by simp [hq], by simp⟩
    · obtain ⟨c, r', hq, hc⟩ := walk_paths_shape b rp rest q n h2
      exact ⟨c, r', hq, by simp [hc]⟩
termination_by sizeOf es
decreasing_by
  · have h1 : sizeOf es' < sizeOf nd := sizeOf_entriesOfF_lt nd es' hE
    have h2 : sizeOf nd < sizeOf ((nm, nd) :: rest) := by simp; omega
    omega
  · simp

theorem lookupEsF_nil (q : Path) : lookupEsF [] q = none := by
  cases q <;> simp [lookupEsF, findEntry]

theorem lookupF_cons (nd : FSNode) (es : List (String × FSNode)) (c : String) (r : Path)
    (h : entriesOfF nd = some es) : lookupF nd (c :: r) = lookupEsF es (c :: r) := by
  simp [lookupF, lookupEsF, h]

theorem lookupF_cons_none (nd : FSNode) (c : String) (r : Path)
    (h : entriesOfF nd = none) : lookupF nd (c :: r) = none := by
  simp [lookupF, h]

theorem findEntry_not_mem (es : List (String × FSNode)) (c : String)
    (h : c ∉ es.map Prod.fst) : findEntry es c = none := by
  induction es with
  | nil => rfl
  | cons e rest ih =>
    obtain ⟨a, w⟩ := e
    simp only [List.map_cons, List.mem_cons, not_or] at h
    simp [findEntry, h.1, ih h.2]

theorem strLtL_irrefl : ∀ l : List Char, strLtL l l = false
  | [] => rfl
  | a :: as => by
    rw [strLtL, if_neg (Nat.lt_irrefl _), if_neg (Nat.lt_irrefl _)]
    exact strLtL_irrefl as

theorem strLtL_trans :
    ∀ a b c : List Char, strLtL a b = true → strLtL b c = true → strLtL a c = true
  | [], [], _, h1, _ => by simp [strLtL] at h1
  | _ :: _, [], _, h1, _ => by simp [strLtL] at h1
  | [], _ :: _, [], _, h2 => by simp [strLtL] at h2
  | [], _ :: _, _ :: _, _, _ => rfl
  | _ :: _, _ :: _, [], _, h2 => by simp [strLtL] at h2
  | a :: as, b :: bs, c :: cs, h1, h2 => by
    rw [strLtL] at h1 h2 ⊢
    by_cases hab : a.toNat < b.toNat
    · rw [if_pos hab] at h1
      by_cases hbc : b.toNat < c.toNat
      · rw [if_pos (by omega : a.toNat < c.toNat)]
      · rw [if_neg hbc] at h2
        by_cases hcb : c.toNat < b.toNat
        · rw [if_pos hcb] at h2; exact absurd h2 (by simp)
        · rw [if_pos (by omega : a.toNat < c.toNat)]
    · rw [if_neg hab] at h1
      by_cases hba : b.toNat < a.toNat
      · rw [if_pos hba] at h1; exact absurd h1 (by simp)
      · rw [if_neg hba] at h1
        by_cases hbc : b.toNat < c.toNat
        · rw [if_pos (by omega : a.toNat < c.toNat)]
        · rw [if_neg hbc] at h2
          by_cases hcb : c.toNat < b.toNat
          · rw [if_pos hcb] at h2; exact absurd h2 (by simp)
          · rw [if_neg hcb] at h2
            rw [if_neg (by omega : ¬ a.toNat < c.toNat),
              if_neg (by omega : ¬ c.toNat < a.toNat)]
            exact strLtL_trans as bs cs h1 h2

theorem strLt_trans (a b c : String) (h1 : strLt a b = true) (h2 : strLt b c = true) :
    strLt a c = true :=
  strLtL_trans a.data b.data c.data h1 h2

theorem strLt_irrefl (a : String) : strLt a a = false :=
  strLtL_irrefl a.data

theorem namesSorted_tail (a : String) (l : List String)
    (h : namesSorted (a :: l) = true) : namesSorted l = true := by
  match l with
  | [] => rfl
  | b :: rest => simp [namesSorted] at h; exact h.2

theorem namesSorted_head_lt (a : String) (l : List String)
    (h : namesSorted (a :: l) = true) : ∀ x ∈ l, strLt a x = true := by
  match l with
  | [] => simp
  | b :: rest =>
    intro x hx
    simp only [namesSorted, Bool.and_eq_true] at h
    rcases List.mem_cons.mp hx with rfl | hx'
    · exact h.1
    · exact strLt_trans a b x h.1 (namesSorted_head_lt b rest h.2 x hx')

theorem namesSorted_head_not_mem (a : String) (l : List String)
    (h : namesSorted (a :: l) = true) : a ∉ l := by
  intro hmem
  have h1 := namesSorted_head_lt a l h a hmem
  rw [strLt_irrefl] at h1
  exact absurd h1 (by simp)

theorem wf_resolveNode (nd m : FSNode) (hw : wfNode nd = true)
    (h : resolveNode nd = some m) : wfNode m = true := by
  match nd with
  | .file st c => simp [resolveNode] at h; simpa [← h] using hw
  | .dir st es => simp [resolveNode] at h; simpa [← h] using hw
  | .symlink t none => simp [resolveNode] at h
  | .symlink t (some w) =>
    exact wf_resolveNode w m (by simpa [wfNode] using hw) (by simpa [resolveNode] using h)

theorem wf_entriesOfF (nd : FSNode) (es : List (String × FSNode)) (hw : wfNode nd = true)
    (h : entriesOfF nd = some es) :
    namesSorted (es.map Prod.fst) = true ∧ wfList es = true := by
  obtain ⟨st, hr⟩ := entriesOfF_resolve nd es h
  have := wf_resolveNode nd _ hw hr
  simpa [wfNode] using this

theorem wf_findEntry (es : List (String × FSNode)) (c : String) (m : FSNode)
    (hw : wfList es = true) (h : findEntry es c = some m) : wfNode m = true := by
  induction es with
  | nil => simp [findEntry] at h
  | cons e rest ih =>
    obtain ⟨a, w⟩ := e
    simp only [wfList, Bool.and_eq_true] at hw
    simp only [findEntry] at h
    split at h
    · cases h; exact hw.1
    · exact ih hw.2 h

/-- Membership characterization of the walk: under well-formedness, the
walk of an entry list at `rp` yields exactly the pairs reachable by
symlink-following lookup strictly beneath `rp`. -/
theorem walk_mem (b : Bool) (rp : Path) (es : List (String × FSNode)) (q : Path) (n : FSNode)
    (hs : namesSorted (es.map Prod.fst) = true) (hw : wfList es = true) :
    ((q, n) ∈ walkList b rp es ↔ ∃ q', q = rp ++ q' ∧ lookupEsF es q' = some n) := by
  match es with
  | [] =>
    simp [walkList, lookupEsF_nil]
  | (nm, nd) :: rest =>
    have hwnd : wfNode nd = true := by
      simp only [wfList, Bool.and_eq_true] at hw; exact hw.1
    have hwrest : wfList rest = true := by
      simp only [wfList, Bool.and_eq_true] at hw; exact hw.2
    have hsrest : namesSorted (rest.map Prod.fst) = true :=
      namesSorted_tail _ _ hs
    have hnotmem : nm ∉ rest.map Prod.fst :=
      namesSorted_head_not_mem _ _ hs
    rw [walkList]
    rw [List.mem_append]
    constructor
    · rintro (h1 | h2)
      · rcases (mem_walkNode b (rp ++ [nm]) nd q n).mp h1 with heq | ⟨es', hE, hm⟩
        · obtain ⟨hq, hn⟩ := Prod.mk.injEq .. ▸ heq
          refine ⟨[nm], by simpa using hq, ?_⟩
          simp [lookupEsF, findEntry, lookupF, hn.symm]
        · have hwes' := wf_entriesOfF nd es' hwnd hE
          obtain ⟨r', hq, hl⟩ := (walk_mem b (rp ++ [nm]) es' q n hwes'.1 hwes'.2).mp hm
          match r', hl with
          | c' :: r'', hl =>
            refine ⟨nm :: c' :: r'', by simp [hq], ?_⟩
            have hstep : lookupEsF ((nm, nd) :: rest) (nm :: c' :: r'') =
                lookupF nd (c' :: r'') := by simp [lookupEsF, findEntry]
            rw [hstep, lookupF_cons nd es' c' r'' hE]
            exact hl
          | [], hl => simp [lookupEsF] at hl
      · obtain ⟨q', hq, hl⟩ := (walk_mem b rp rest q n hsrest hwrest).mp h2
        match q', hl with
        | c :: r, hl =>
          have hc : c ≠ nm := by
            intro hcnm
            subst hcnm
            simp [lookupEsF, findEntry_not_mem rest c hnotmem] at hl
          refine ⟨c :: r, hq, ?_⟩
          simpa [lookupEsF, findEntry, hc] using hl
        | [], hl => simp [lookupEsF] at hl
    · rintro ⟨q', hq, hl⟩
      match q', hl with
      | [], hl => simp [lookupEsF] at hl
      | c :: r, hl =>
        by_cases hc : c = nm
        · subst hc
          have hl' : lookupF nd r = some n := by
            simpa [lookupEsF, findEntry] using hl
          match r, hl' with
          | [], hl' =>
            left
            refine (mem_walkNode b (rp ++ [c]) nd q n).mpr (Or.inl ?_)
            have hn : nd = n := by simpa [lookupF] using hl'
            simp [hq, hn]
          | c' :: r'', hl' =>
            left
            refine (mem_walkNode b (rp ++ [c]) nd q n).mpr (Or.inr ?_)
            cases hE : entriesOfF nd with
            | none => rw [lookupF_cons_none nd c' r'' hE] at hl'; cases hl'
            | some es' =>
              have hwes' := wf_entriesOfF nd es' hwnd hE
              refine ⟨es', rfl, ?_⟩
              refine (walk_mem b (rp ++ [c]) es' q n hwes'.1 hwes'.2).mpr ?_
              refine ⟨c' :: r'', by simp [hq], ?_⟩
              rw [lookupF_cons nd es' c' r'' hE] at hl'
              exact hl'
        · right
          refine (walk_mem b rp rest q n hsrest hwrest).mpr ?_
          refine ⟨c :: r, hq, ?_⟩
          simpa [lookupEsF, findEntry, hc] using hl
termination_by sizeOf es
decreasing_by
  · have h1 : sizeOf es' < sizeOf nd := sizeOf_entriesOfF_lt nd es' hE
    have h2 : sizeOf nd < sizeOf ((nm, nd) :: rest) := by simp; omega
    omega
  · simp
  · have h1 : sizeOf es' < sizeOf nd := sizeOf_entriesOfF_lt nd es' hE
    have h2 : sizeOf nd < sizeOf ((nm, nd) :: rest) := by simp; omega
    omega
  · simp

theorem walkNode_eq (b : Bool) (p : Path) (nd : FSNode) :
    walkNode b p nd =
      match entriesOfF nd with
      | none => [(p, nd)]
      | some es =>
        (if b then [(p, nd)] else []) ++ walkList b p es ++
          (if b then [] else [(p, nd)]) := by
  match nd with
  | .file st c => simp [walkNode, entriesOfF, resolveNode]
  | .dir st es => simp [walkNode, entriesOfF, resolveNode]
  | .symlink t r =>
    rw [show walkNode b p (.symlink t r) =
        (match walkRes b p r with
         | none => [(p, .symlink t r)]
         | some inner =>
           (if b then [(p, FSNode.symlink t r)] else []) ++ inner ++
             (if b then [] else [(p, FSNode.symlink t r)])) from rfl]
    rw [walkRes_eq, entriesOfF_symlink]
    cases r.bind entriesOfF <;> simp

theorem append_cons_not_prefix (p : Path) (c : String) (r : Path) :
    ¬ (p ++ c :: r <+: p) := by
  intro h
  have := h.length_le
  simp at this

theorem prefix_head_eq (rp : Path) (c₁ c₂ : String) (r₁ r₂ : Path)
    (h : rp ++ c₁ :: r₁ <+: rp ++ c₂ :: r₂) : c₁ = c₂ := by
  rw [List.prefix_append_right_inj] at h
  exact (List.cons_prefix_cons.mp h).1

theorem walk_nodup (b : Bool) (rp : Path) (es : List (String × FSNode))
    (hs : namesSorted (es.map Prod.fst) = true) (hw : wfList es = true) :
    ((walkList b rp es).map Prod.fst).Nodup := by
  match es with
  | [] => simp [walkList]
  | (nm, nd) :: rest =>
    have hwnd : wfNode nd = true := by
      simp only [wfList, Bool.and_eq_true] at hw; exact hw.1
    have hwrest : wfList rest = true := by
      simp only [wfList, Bool.and_eq_true] at hw; exact hw.2
    have hsrest : namesSorted (rest.map Prod.fst) = true := namesSorted_tail _ _ hs
    have hnotmem : nm ∉ rest.map Prod.fst := namesSorted_head_not_mem _ _ hs
    rw [walkList, List.map_append, List.nodup_append]
    refine ⟨?_, walk_nodup b rp rest hsrest hwrest, ?_⟩
    · -- the walkNode part is nodup
      cases hE : entriesOfF nd with
      | none => rw [walkNode_eq, hE]; simp
      | some es' =>
        have hwes' := wf_entriesOfF nd es' hwnd hE
        have hrec := walk_nodup b (rp ++ [nm]) es' hwes'.1 hwes'.2
        have hnotin : (rp ++ [nm]) ∉ (walkList b (rp ++ [nm]) es').map Prod.fst := by
          intro hmem
        -- a walked path strictly extends its directory path
          obtain ⟨x, hx, hfst⟩ := List.mem_map.mp hmem
          obtain ⟨c, r', hq, _⟩ := walk_paths_shape b (rp ++ [nm]) es' x.1 x.2
            (by simpa using hx)
          rw [hfst] at hq
          have := congrArg List.length hq
          simp at this
        cases b with
        | true =>
          have hrw : (walkNode true (rp ++ [nm]) nd).map Prod.fst =
              (rp ++ [nm]) :: (walkList true (rp ++ [nm]) es').map Prod.fst := by
            rw [walkNode_eq, hE]; simp
          rw [hrw]
          exact List.nodup_cons.mpr ⟨hnotin, hrec⟩
        | false =>
          have hrw : (walkNode false (rp ++ [nm]) nd).map Prod.fst =
              (walkList false (rp ++ [nm]) es').map Prod.fst ++ [rp ++ [nm]] := by
            rw [walkNode_eq, hE]; simp
          rw [hrw, List.nodup_append]
          refine ⟨hrec, by simp, ?_⟩
          intro a ha hb
          simp only [List.mem_singleton] at hb
          rw [hb] at ha
          exact hnotin ha
    · -- paths below the head entry never reappear below the tail entries
      intro a ha hb
      obtain ⟨x, hx, hfst⟩ := List.mem_map.mp ha
      obtain ⟨y, hy, hfst'⟩ := List.mem_map.mp hb
      have hxshape : ∃ r₁, x.1 = rp ++ nm :: r₁ := by
        rcases (mem_walkNode b (rp ++ [nm]) nd x.1 x.2 |>.mp (by simpa using hx)) with
          heq | ⟨es', hE, hm⟩
        · exact ⟨[], by simpa using congrArg Prod.fst heq⟩
        · obtain ⟨c, r', hq, _⟩ := walk_paths_shape b (rp ++ [nm]) es' x.1 x.2 hm
          exact ⟨c :: r', by simpa using hq⟩
      obtain ⟨r₁, hx1⟩ := hxshape
      obtain ⟨c₂, r₂, hy1, hc₂⟩ := walk_paths_shape b rp rest y.1 y.2 (by simpa using hy)
      have : rp ++ nm :: r₁ = rp ++ c₂ :: r₂ := by
        rw [← hx1, ← hy1, hfst, hfst']
      have hnmc : nm = c₂ := by
        have := List.append_cancel_left this
        exact (List.cons.injEq .. ▸ this).1
      exact hnotmem (hnmc ▸ hc₂)
termination_by sizeOf es
decreasing_by
  all_goals first
    | (simp; done)
    | (have h1 : sizeOf es' < sizeOf nd := sizeOf_entriesOfF_lt nd es' hE
       simp
       omega)

theorem walkNode_path_prefix (b : Bool) (p : Path) (nd : FSNode) (x : Path × FSNode)
    (hx : x ∈ walkNode b p nd) : p <+: x.1 := by
  rcases (mem_walkNode b p nd x.1 x.2).mp (by simpa using hx) with heq | ⟨es', _, hm⟩
  · have : x.1 = p := congrArg Prod.fst heq
    simp [this]
  · obtain ⟨c, r', hq, _⟩ := walk_paths_shape b p es' x.1 x.2 hm
    exact ⟨c :: r', hq.symm⟩

/-- In a pre-order walk a directory appears before everything beneath
it: no later yield is a strict ancestor of an earlier one. -/
theorem walk_pairwise_pre (rp : Path) (es : List (String × FSNode))
    (hs : namesSorted (es.map Prod.fst) = true) (hw : wfList es = true) :
    (walkList true rp es).Pairwise (fun x y => ¬(y.1 <+: x.1 ∧ y.1 ≠ x.1)) := by
  match es with
  | [] => simp [walkList]
  | (nm, nd) :: rest =>
    have hwnd : wfNode nd = true := by
      simp only [wfList, Bool.and_eq_true] at hw; exact hw.1
    have hwrest : wfList rest = true := by
      simp only [wfList, Bool.and_eq_true] at hw; exact hw.2
    have hsrest : namesSorted (rest.map Prod.fst) = true := namesSorted_tail _ _ hs
    have hnotmem : nm ∉ rest.map Prod.fst := namesSorted_head_not_mem _ _ hs
    rw [walkList, List.pairwise_append]
    refine ⟨?_, walk_pairwise_pre rp rest hsrest hwrest, ?_⟩
    · cases hE : entriesOfF nd with
      | none =>
        rw [walkNode_eq, hE]
        simp
      | some es' =>
        have hwes' := wf_entriesOfF nd es' hwnd hE
        have hrw : walkNode true (rp ++ [nm]) nd =
            (rp ++ [nm], nd) :: walkList true (rp ++ [nm]) es' := by
          rw [walkNode_eq, hE]; simp
        rw [hrw, List.pairwise_cons]
        refine ⟨?_, walk_pairwise_pre (rp ++ [nm]) es' hwes'.1 hwes'.2⟩
        intro y hy ⟨hpre, _⟩
        obtain ⟨c, r', hq, _⟩ := walk_paths_shape true (rp ++ [nm]) es' y.1 y.2
          (by simpa using hy)
        rw [hq] at hpre
        exact append_cons_not_prefix _ _ _ hpre
    · intro x hx y hy ⟨hpre, _⟩
      obtain ⟨t, hxp⟩ := walkNode_path_prefix true (rp ++ [nm]) nd x hx
      obtain ⟨c₂, r₂, hy1, hc₂⟩ := walk_paths_shape true rp rest y.1 y.2 (by simpa using hy)
      have hx1 : x.1 = rp ++ nm :: t := by
        rw [← hxp]; simp
      rw [hx1, hy1] at hpre
      exact hnotmem ((prefix_head_eq rp c₂ nm r₂ t hpre) ▸ hc₂)
termination_by sizeOf es
decreasing_by
  all_goals first
    | (simp; done)
    | (have h1 : sizeOf es' < sizeOf nd := sizeOf_entriesOfF_lt nd es' hE
       simp
       omega)

/-- In a post-order walk a directory appears after everything beneath
it: no earlier yield is a strict ancestor of a later one. -/
theorem walk_pairwise_post (rp : Path) (es : List (String × FSNode))
    (hs : namesSorted (es.map Prod.fst) = true) (hw : wfList es = true) :
    (walkList false rp es).Pairwise (fun x y => ¬(x.1 <+: y.1 ∧ x.1 ≠ y.1)) := by
  match es with
  | [] => simp [walkList]
  | (nm, nd) :: rest =>
    have hwnd : wfNode nd = true := by
      simp only [wfList, Bool.and_eq_true] at hw; exact hw.1
    have hwrest : wfList rest = true := by
      simp only [wfList, Bool.and_eq_true] at hw; exact hw.2
    have hsrest : namesSorted (rest.map Prod.fst) = true := namesSorted_tail _ _ hs
    have hnotmem : nm ∉ rest.map Prod.fst := namesSorted_head_not_mem _ _ hs
    rw [walkList, List.pairwise_append]
    refine ⟨?_, walk_pairwise_post rp rest hsrest hwrest, ?_⟩
    · cases hE : entriesOfF nd with
      | none =>
        rw [walkNode_eq, hE]
        simp
      | some es' =>
        have hwes' := wf_entriesOfF nd es' hwnd hE
        have hrw : walkNode false (rp ++ [nm]) nd =
            walkList false (rp ++ [nm]) es' ++ [(rp ++ [nm], nd)] := by
          rw [walkNode_eq, hE]; simp
        rw [hrw, List.pairwise_append]
        refine ⟨walk_pairwise_post (rp ++ [nm]) es' hwes'.1 hwes'.2, by simp, ?_⟩
        intro x hx y hy
        rintro ⟨hpre, _⟩
        simp only [List.mem_singleton] at hy
        obtain ⟨c, r', hq, _⟩ := walk_paths_shape false (rp ++ [nm]) es' x.1 x.2
          (by simpa using hx)
        rw [hq, hy] at hpre
        exact append_cons_not_prefix _ _ _ hpre
    · intro x hx y hy
      rintro ⟨hpre, _⟩
      obtain ⟨t, hxp⟩ := walkNode_path_prefix false (rp ++ [nm]) nd x hx
      obtain ⟨c₂, r₂, hy1, hc₂⟩ := walk_paths_shape false rp rest y.1 y.2 (by simpa using hy)
      have hx1 : x.1 = rp ++ nm :: t := by
        rw [← hxp]; simp
      rw [hx1, hy1] at hpre
      exact hnotmem ((prefix_head_eq rp nm c₂ t r₂ hpre) ▸ hc₂)
termination_by sizeOf es
decreasing_by
  all_goals first
    | (simp; done)
    | (have h1 : sizeOf es' < sizeOf nd := sizeOf_entriesOfF_lt nd es' hE
       simp
       omega)

theorem lookupF_step (root : FSNode) (c : String) (r : Path) :
    lookupF root (c :: r) =
      ((entriesOfF root).bind fun es => findEntry es c).bind fun m => lookupF m r := by
  cases hE : entriesOfF root with
  | none => simp [lookupF, hE]
  | some es =>
    cases hf : findEntry es c with
    | none => simp [lookupF, hE, hf]
    | some m => simp [lookupF, hE, hf]

theorem lookupF_append (root : FSNode) (q1 q2 : Path) :
    lookupF root (q1 ++ q2) = (lookupF root q1).bind (fun m => lookupF m q2) := by
  induction q1 generalizing root with
  | nil => simp [lookupF]
  | cons c r ih =>
    rw [List.cons_append, lookupF_step root c (r ++ q2), lookupF_step root c r]
    cases (entriesOfF root).bind (fun es => findEntry es c) with
    | none => simp
    | some m => simpa using ih m

/-- C7 (counterexample).  The Directory Walker follows a symlink whose
target is a directory: on a root whose only entry is such a symlink, the
walk yields the path `l/a` strictly beneath the symlink `l` — the
symlink is recursed into, contradicting the claim that symlinks are
yielded as leaf entries and never recursed into. -/
theorem c7_walker_counterexample :
    (recursive_scandir true walkLinkDirEx).map (fun x => (x.1, shapeOf x.2)) =
      [((["l"] : Path), Shape.l "t"), ((["l", "a"] : Path), Shape.f ⟨7, 8, 9⟩ "x")] ∧
    isLink ((recursive_scandir true walkLinkDirEx).head?.map Prod.snd |>.getD
      (.file ⟨0, 0, 0⟩ "")) = true ∧
    ((["l"] : Path) <+: ["l", "a"]) ∧ (["l"] : Path) ≠ ["l", "a"] := by
  refine ⟨by decide, by decide, ⟨["a"], rfl⟩, by decide⟩

/-- C7 (amended).  Under well-formedness, the walk of a root that
resolves to a directory yields, exactly once each, precisely the entries
reachable beneath the root when symlinks to directories are traversed as
directories; `dir_first = true` places every directory-like entry before
everything beneath it and `dir_first = false` after it; and a symlink
that does not resolve to a directory is a leaf: nothing is ever yielded
strictly beneath it. -/
theorem c7_walker_amended (root : FSNode) (es : List (String × FSNode))
    (hwf : wfNode root = true) (hE : entriesOfF root = some es) :
    (∀ b, ((recursive_scandir b root).map Prod.fst).Nodup) ∧
    (∀ b q n, ((q, n) ∈ recursive_scandir b root ↔ q ≠ [] ∧ lookupF root q = some n)) ∧
    ((recursive_scandir true root).Pairwise (fun x y => ¬(y.1 <+: x.1 ∧ y.1 ≠ x.1))) ∧
    ((recursive_scandir false root).Pairwise (fun x y => ¬(x.1 <+: y.1 ∧ x.1 ≠ y.1))) ∧
    (∀ b q n, (q, n) ∈ recursive_scandir b root → isDirF n = false →
      ∀ q' n', (q', n') ∈ recursive_scandir b root → ¬(q <+: q' ∧ q ≠ q')) := by
  have hwes := wf_entriesOfF root es hwf hE
  have hscan : ∀ b, recursive_scandir b root = walkList b [] es := by
    intro b
    simp [recursive_scandir, hE]
  have hmem : ∀ b q n, ((q, n) ∈ recursive_scandir b root ↔ q ≠ [] ∧ lookupF root q = some n) := by
    intro b q n
    rw [hscan b, walk_mem b [] es q n hwes.1 hwes.2]
    constructor
    · rintro ⟨q', hq, hl⟩
      simp only [List.nil_append] at hq
      match q', hq, hl with
      | c :: r, hq, hl =>
        subst hq
        exact ⟨by simp, by rw [lookupF_cons root es c r hE]; exact hl⟩
      | [], hq, hl => simp [lookupEsF] at hl
    · rintro ⟨hne, hl⟩
      match q, hne with
      | c :: r, _ =>
        exact ⟨c :: r, by simp, by rw [← lookupF_cons root es c r hE]; exact hl⟩
  refine ⟨?_, hmem, ?_, ?_, ?_⟩
  · intro b
    rw [hscan b]
    exact walk_nodup b [] es hwes.1 hwes.2
  · rw [hscan true]
    exact walk_pairwise_pre [] es hwes.1 hwes.2
  · rw [hscan false]
    exact walk_pairwise_post [] es hwes.1 hwes.2
  · intro b q n hqn hnd q' n' hq'n' ⟨hpre, hne⟩
    obtain ⟨hne0, hl⟩ := (hmem b q n).mp hqn
    obtain ⟨hne0', hl'⟩ := (hmem b q' n').mp hq'n'
    obtain ⟨t, ht⟩ := hpre
    match t, ht with
    | [], ht => exact hne (by simp [← ht])
    | c :: r, ht =>
      rw [← ht, lookupF_append root q (c :: r), hl] at hl'
      simp only [Option.some_bind] at hl'
      have hEn : entriesOfF n = none := by
        simp only [isDirF] at hnd
        exact Option.not_isSome_iff_eq_none.mp (by simp [hnd])
      rw [lookupF_cons_none n c r hEn] at hl'
      cases hl'

/-- Witness for the amended C7 theorem at a concrete well-formed tree
containing a symlink to a directory. -/
theorem c7_walker_amended_witness :
    ((recursive_scandir true walkLinkDirEx).map Prod.fst).Nodup ∧
    ((["l", "a"], FSNode.file ⟨7, 8, 9⟩ "x") ∈ recursive_scandir true walkLinkDirEx ↔
      (["l", "a"] : Path) ≠ [] ∧
        lookupF walkLinkDirEx ["l", "a"] = some (.file ⟨7, 8, 9⟩ "x")) := by
  have h := c7_walker_amended walkLinkDirEx
    [("l", .symlink "t" (some (.dir ⟨4, 5, 6⟩ [("a", .file ⟨7, 8, 9⟩ "x")])))]
    (by decide) rfl
  exact ⟨h.1 true, h.2.1 true ["l", "a"] (.file ⟨7, 8, 9⟩ "x")⟩

/-- C5.  The Filter Variant cleanup removes every symlink, recurses into
every directory and then removes it, and fails hard on any other entry
without deleting it: it succeeds exactly when no regular file lies
anywhere beneath the destination, on success it empties the destination,
and it never deletes a regular file — every file path present before the
run is still present (at the same place) afterwards, whether it fails
early or not. -/
theorem c5_filter_clean_foreign_file (rp : Path) (es : List (String × FSNode)) :
    ((filterClean rp es).2 = none ↔ filePathsList rp es = []) ∧
    ((filterClean rp es).2 = none → (filterClean rp es).1 = []) ∧
    filePathsList rp (filterClean rp es).1 = filePathsList rp es := by
  match es with
  | [] => simp [filterClean, filePathsList]
  | (n, .file st c) :: rest =>
    simp [filterClean, filePathsList]
  | (n, .symlink t r) :: rest =>
    have ih := c5_filter_clean_foreign_file rp rest
    simpa [filterClean, filePathsList] using ih
  | (n, .dir st es') :: rest =>
    have ihInner := c5_filter_clean_foreign_file (rp ++ [n]) es'
    have ihRest := c5_filter_clean_foreign_file rp rest
    rcases hInner : filterClean (rp ++ [n]) es' with ⟨es'', err'⟩
    rw [hInner] at ihInner
    cases err' with
    | some e =>
      have hfc : filterClean rp ((n, FSNode.dir st es') :: rest) =
          ((n, FSNode.dir st es'') :: rest, some e) := by
        simp only [filterClean, hInner]
      rw [hfc]
      have hne : filePathsList (rp ++ [n]) es' ≠ [] := by
        intro h0
        have := ihInner.1.mpr h0
        simp at this
      refine ⟨?_, by simp, ?_⟩
      · simp only [filePathsList]
        constructor
        · intro h; cases h
        · intro h
          rcases List.append_eq_nil.mp h with ⟨h1, _⟩
          exact absurd h1 hne
      · simp only [filePathsList]
        have h3 := ihInner.2.2
        simp only at h3
        rw [h3]
    | none =>
      have hfc : filterClean rp ((n, FSNode.dir st es') :: rest) = filterClean rp rest := by
        simp only [filterClean, hInner]
      rw [hfc]
      have hInnerEmpty : filePathsList (rp ++ [n]) es' = [] := ihInner.1.mp rfl
      refine ⟨?_, ihRest.2.1, ?_⟩
      · rw [ihRest.1]
        simp [filePathsList, hInnerEmpty]
      · rw [ihRest.2.2]
        simp [filePathsList, hInnerEmpty]
termination_by sizeOf es
decreasing_by
  all_goals simp
  all_goals omega

/-- C2.  The staleness oracle: for a source file the selection function
maps to a destination path, the pass yields that destination and marks
it for conversion exactly unless the existing destination is a regular
file whose `st_mtime` and `st_mtime_ns` both equal the source's; in the
up-to-date case nothing is removed (the destination tree is returned
unchanged). -/
theorem c2_staleness_oracle (sel : ConvSel) (d0 : Stat) (srcRel : Path) (srcNode : FSNode)
    (dst : FSNode) (dstRel : Path) (s d : Path) (flag : Bool) (dst' : FSNode)
    (hnd : isDirF srcNode = false) (hsel : sel srcRel = some dstRel)
    (hstep : selectStep sel d0 srcRel srcNode dst = (dst', .ok (s, d, flag))) :
    s = srcRel ∧ d = dstRel ∧
    (flag = false ↔ ∃ fs c sst, lookupPath dst dstRel = some (.file fs c) ∧
      statFollow srcNode = some sst ∧ fs.mtime = sst.mtime ∧ fs.mtimeNs = sst.mtimeNs) ∧
    (flag = false → dst' = dst) := by
  rw [selectStep, hnd, hsel] at hstep
  simp only [Bool.false_eq_true, if_false] at hstep
  split at hstep
  · -- no destination entry: stale
    rename_i hL
    cases hstep
    refine ⟨rfl, rfl, by simp [hL], by intro hf; cases hf⟩
  · -- destination exists
    rename_i m hL
    split at hstep
    · -- broken source symlink: OSError, contradicts success
      cases hstep
    · rename_i sst hS
      split at hstep
      · -- destination is a regular file
        rename_i fs c
        split at hstep
        · -- timestamps match: up to date
          rename_i hmt
          cases hstep
          refine ⟨rfl, rfl, ?_, fun _ => rfl⟩
          simp only [true_iff]
          exact ⟨fs, c, sst, hL, hS, hmt.1, hmt.2⟩
        · -- timestamps differ: remove and reconvert
          rename_i hmt
          split at hstep
          · cases hstep
            refine ⟨rfl, rfl, ?_, by intro hf; cases hf⟩
            simp only [Bool.true_eq_false, false_iff]
            rintro ⟨fs', c', sst', hL', hS', hm1, hm2⟩
            rw [hL] at hL'
            injection hL' with hL''
            cases hL''
            rw [hS] at hS'
            injection hS' with hS''
            cases hS''
            exact hmt ⟨hm1, hm2⟩
          · cases hstep
      · -- destination is a directory or symlink: remove and reconvert
        rename_i hnotfile
        split at hstep
        · cases hstep
          refine ⟨rfl, rfl, ?_, by intro hf; cases hf⟩
          simp only [Bool.true_eq_false, false_iff]
          rintro ⟨fs', c', sst', hL', _, _, _⟩
          rw [hL] at hL'
          injection hL' with hL''
          exact hnotfile fs' c' hL''
        · cases hstep

/-- Witness for C2: a destination file with matching timestamps (but a
different mode) is judged up to date and nothing is removed. -/
theorem c2_staleness_oracle_witness :
    isDirF c2Src = false ∧ c2Sel ["a"] = some ["o"] ∧
    ((false = false ↔ ∃ fs c sst, lookupPath c2Dst ["o"] = some (.file fs c) ∧
        statFollow c2Src = some sst ∧ fs.mtime = sst.mtime ∧ fs.mtimeNs = sst.mtimeNs) ∧
      (false = false → c2Dst = c2Dst)) :=
  ⟨by decide, by decide,
    (c2_staleness_oracle c2Sel exD0 ["a"] c2Src c2Dst ["o"] ["a"] ["o"] false c2Dst
      (by decide) (by decide) rfl).2.2⟩

/-- C6 (counterexample).  A cross-directory rename does fail with the
descriptive error, but it does not leave the destination tree unmodified
for that directory: keep-list entries processed before the offending one
are already symlinked when the error is raised.  Here `a` is symlinked
into the (previously empty) destination before the rename of `b` into
`other/` aborts the pass. -/
theorem c6_cross_dir_rename_counterexample :
    (filter_dir c6Sel exD0 c6Src [] [] emptyDst).2.2 =
      some ("Renaming across dirs is not supported: b -> other/b in directory " ++
        " -> ") ∧
    flatPaths (filter_dir c6Sel exD0 c6Src [] [] emptyDst).1 = [["a"]] ∧
    flatPaths emptyDst = [] := by
  refine ⟨?_, ?_, ?_⟩ <;>
    simp +decide [filter_dir, filterItems, c6Sel, c6Src, emptyDst, exD0, resolveNode,
      pathStr, findEntry, setEntry, removeEntry, lookupPath, setAtPath, makedirs,
      entriesOfF, isDirF, isLink, String.intercalate, setDirStatAt, statFollow, nodeStat,
      flatPaths, flatPaths.flatList]

/-- C6 (amended).  If the keep list is a well-behaved prefix followed by
a rename whose destination does not lie directly in the current
destination directory, the pass stops with the prefix's own error if the
prefix already failed, and otherwise with the descriptive
cross-directory error, returning exactly the state reached after the
prefix: the offending entry is never placed (nothing is written at the
cross-directory target by it), but entries earlier in the keep list have
already been processed. -/
theorem c6_cross_dir_rename_amended (sel : SelectCb) (d0 : Stat) (srcNode : FSNode)
    (contents : List (String × FSNode)) (srcRel dstRel : Path)
    (pre : List (String × Option Path)) (name : String) (ren : Path)
    (post : List (String × Option Path)) (dst dst₁ : FSNode)
    (st₁ : List (Path × Path × Stat)) (res : Option String)
    (hpre : ∀ it ∈ pre, ((it.2).getD (dstRel ++ [it.1])).dropLast = dstRel)
    (hoff : ren.dropLast ≠ dstRel)
    (hpfx : filterItems sel d0 srcNode contents srcRel dstRel pre dst = (dst₁, st₁, res)) :
    filterItems sel d0 srcNode contents srcRel dstRel
      (pre ++ (name, some ren) :: post) dst =
      (dst₁, st₁, some (res.getD
        ("Renaming across dirs is not supported: " ++ pathStr (srcRel ++ [name]) ++
          " -> " ++ pathStr ren ++ " in directory " ++ pathStr srcRel ++ " -> " ++
          pathStr dstRel))) := by
  induction pre generalizing dst dst₁ st₁ res with
  | nil =>
    rw [filterItems.eq_1] at hpfx
    cases hpfx
    rw [List.nil_append, filterItems.eq_2]
    rw [if_pos (by simpa using hoff)]
    rfl
  | cons it pre' ih =>
    obtain ⟨n0, r0⟩ := it
    have h0 : ¬ ((r0.getD (dstRel ++ [n0])).dropLast ≠ dstRel) := by
      simpa using hpre (n0, r0) (List.mem_cons_self _ _)
    have hpre' : ∀ it ∈ pre', ((it.2).getD (dstRel ++ [it.1])).dropLast = dstRel :=
      fun it hit => hpre it (List.mem_cons_of_mem _ hit)
    rw [List.cons_append]
    rw [filterItems.eq_2] at hpfx ⊢
    rw [if_neg h0] at hpfx ⊢
    split at hpfx
    · -- the named entry is not part of the directory contents: skipped
      exact ih dst _ _ _ hpre' hpfx
    · rename_i child hf
      by_cases hd : isDirF child = true
      · rw [if_pos hd] at hpfx ⊢
        rcases hfd : filter_dir sel d0 child (srcRel ++ [n0]) (r0.getD (dstRel ++ [n0])) dst
          with ⟨dstA, stampsA, errA⟩
        cases errA with
        | some e =>
          try simp only [hfd] at hpfx
          try simp only [hfd]
          cases hpfx
          rfl
        | none =>
          try simp only [hfd] at hpfx
          try simp only [hfd]
          rcases hpr : filterItems sel d0 srcNode contents srcRel dstRel pre' dstA
            with ⟨dstB, stampsB, errB⟩
          try simp only [hpr] at hpfx
          cases hpfx
          have hstep := ih dstA _ _ _ hpre' hpr
          simp only [hstep]
      · rw [if_neg hd] at hpfx ⊢
        cases hmk : makedirs d0 dst dstRel with
        | none =>
          try simp only [hmk] at hpfx
          try simp only [hmk]
          cases hpfx
          rfl
        | some dstA =>
          try simp only [hmk] at hpfx
          try simp only [hmk]
          cases hlk : lookupPath dstA (r0.getD (dstRel ++ [n0])) with
          | some w =>
            try simp only [hlk] at hpfx
            try simp only [hlk]
            cases hpfx
            rfl
          | none =>
            try simp only [hlk] at hpfx
            try simp only [hlk]
            cases hset : setAtPath dstA (r0.getD (dstRel ++ [n0]))
                (.symlink (pathStr (srcRel ++ [n0])) (resolveNode child)) with
            | none =>
              try simp only [hset] at hpfx
              try simp only [hset]
              cases hpfx
              rfl
            | some dstB =>
              try simp only [hset] at hpfx
              try simp only [hset]
              exact ih dstB _ _ _ hpre' hpfx

/-- Witness for the amended C6 theorem on the concrete scenario: the
prefix (symlinking `a`) succeeds, and the pass then stops at the
offending rename of `b` with the state reached after the prefix. -/
theorem c6_cross_dir_rename_amended_witness :
    filterItems c6Sel exD0 c6Src
      [("a", .file ⟨2, 2, 2⟩ "A"), ("b", .file ⟨3, 3, 3⟩ "B")] [] []
      ([("a", (none : Option Path))] ++ ("b", some ["other", "b"]) :: []) emptyDst =
      (.dir ⟨5, 5, 5⟩ [("a", .symlink "a" (some (.file ⟨2, 2, 2⟩ "A")))], [],
        some ((none : Option String).getD
          ("Renaming across dirs is not supported: " ++ pathStr ([] ++ ["b"]) ++
            " -> " ++ pathStr ["other", "b"] ++ " in directory " ++ pathStr [] ++
            " -> " ++ pathStr []))) :=
  c6_cross_dir_rename_amended c6Sel exD0 c6Src
    [("a", .file ⟨2, 2, 2⟩ "A"), ("b", .file ⟨3, 3, 3⟩ "B")] [] []
    [("a", none)] "b" ["other", "b"] []
    emptyDst (.dir ⟨5, 5, 5⟩ [("a", .symlink "a" (some (.file ⟨2, 2, 2⟩ "A")))]) [] none
    (by intro it hit; simp at hit; simp [hit]) (by decide)
    (by simp +decide [filterItems, c6Sel, c6Src, emptyDst, exD0, resolveNode, pathStr,
      findEntry, setEntry, removeEntry, lookupPath, setAtPath, makedirs, entriesOfF,
      isDirF, isLink, String.intercalate])

/-! ### Lemmas about the convert loop -/

/-- One step of the convert loop when `select_and_symlink` raises. -/
theorem convertLoop_cons_error (eager : Bool) (conv : ConvCb) (sel : ConvSel) (d0 : Stat)
    (src srcNode : FSNode) (srcRel : Path) (rest : List (Path × FSNode)) (st : CState)
    (dstA : FSNode) (e : String)
    (hss : selectStep sel d0 srcRel srcNode st.dst = (dstA, .error e)) :
    convertLoop eager conv sel d0 src ((srcRel, srcNode) :: rest) st =
      ({st with dst := dstA}, some e) := by
  rw [convertLoop, hss]

/-- One step of the convert loop when `select_and_symlink` yields. -/
theorem convertLoop_cons_ok (eager : Bool) (conv : ConvCb) (sel : ConvSel) (d0 : Stat)
    (src srcNode : FSNode) (srcRel : Path) (rest : List (Path × FSNode)) (st : CState)
    (dstA : FSNode) (s d : Path) (flag : Bool)
    (hss : selectStep sel d0 srcRel srcNode st.dst = (dstA, .ok (s, d, flag))) :
    convertLoop eager conv sel d0 src ((srcRel, srcNode) :: rest) st =
      if (st.seen.map Prod.fst).contains d then
        ({st with dst := dstA}, some ("Duplicate destination path " ++ pathStr d))
      else if flag then
        if eager then
          match convert_one conv src dstA s d with
          | (dst'', some e) =>
            ({ dst := dst'', ys := st.ys ++ [(s, d, flag)], seen := st.seen ++ [(d, s)],
               pending := st.pending, invoked := st.invoked ++ [(s, d)] }, some e)
          | (dst'', none) =>
            convertLoop eager conv sel d0 src rest
              { dst := dst'', ys := st.ys ++ [(s, d, flag)], seen := st.seen ++ [(d, s)],
                pending := st.pending, invoked := st.invoked ++ [(s, d)] }
        else
          convertLoop eager conv sel d0 src rest
            { dst := dstA, ys := st.ys ++ [(s, d, flag)], seen := st.seen ++ [(d, s)],
              pending := st.pending ++ [(s, d)], invoked := st.invoked }
      else
        convertLoop eager conv sel d0 src rest
          { dst := dstA, ys := st.ys ++ [(s, d, flag)], seen := st.seen ++ [(d, s)],
            pending := st.pending, invoked := st.invoked } := by
  rw [convertLoop, hss]

/-- On the barrier schedule the loop never runs a conversion: the
invocation trace is untouched. -/
theorem convertLoop_false_invoked (conv : ConvCb) (sel : ConvSel) (d0 : Stat) (src : FSNode) :
    ∀ (es : List (Path × FSNode)) (st : CState),
      ((convertLoop false conv sel d0 src es st).1).invoked = st.invoked
  | [], _ => rfl
  | (srcRel, srcNode) :: rest, st => by
    cases hss : selectStep sel d0 srcRel srcNode st.dst with
    | mk dstA r =>
      cases r with
      | error e => rw [convertLoop_cons_error false conv sel d0 src srcNode srcRel rest st dstA e hss]
      | ok v =>
        obtain ⟨s, d, flag⟩ := v
        rw [convertLoop_cons_ok false conv sel d0 src srcNode srcRel rest st dstA s d flag hss]
        by_cases hd : (st.seen.map Prod.fst).contains d = true
        · rw [if_pos hd]
        · rw [if_neg hd]
          cases flag with
          | true =>
            rw [if_pos rfl, if_neg Bool.false_ne_true]
            exact convertLoop_false_invoked conv sel d0 src rest _
          | false =>
            rw [if_neg Bool.false_ne_true]
            exact convertLoop_false_invoked conv sel d0 src rest _

/-- A successful prefix of the walk composes with the remainder of the
loop (barrier schedule). -/
theorem convertLoop_false_append (conv : ConvCb) (sel : ConvSel) (d0 : Stat) (src : FSNode) :
    ∀ (xs ys : List (Path × FSNode)) (st st' : CState),
      convertLoop false conv sel d0 src xs st = (st', none) →
      convertLoop false conv sel d0 src (xs ++ ys) st =
        convertLoop false conv sel d0 src ys st'
  | [], ys, st, st', h => by
    have h2 : (st, (none : Option String)) = (st', none) := h
    cases h2; rfl
  | (srcRel, srcNode) :: rest, ys, st, st', h => by
    simp only [List.cons_append]
    cases hss : selectStep sel d0 srcRel srcNode st.dst with
    | mk dstA r =>
      cases r with
      | error e =>
        rw [convertLoop_cons_error false conv sel d0 src srcNode srcRel rest st dstA e hss] at h
        simp at h
      | ok v =>
        obtain ⟨s, d, flag⟩ := v
        rw [convertLoop_cons_ok false conv sel d0 src srcNode srcRel rest st dstA s d flag hss] at h
        rw [convertLoop_cons_ok false conv sel d0 src srcNode srcRel (rest ++ ys) st dstA s d flag hss]
        by_cases hd : (st.seen.map Prod.fst).contains d = true
        · rw [if_pos hd] at h; simp at h
        · rw [if_neg hd] at h ⊢
          cases flag with
          | true =>
            rw [if_pos rfl, if_neg Bool.false_ne_true] at h ⊢
            exact convertLoop_false_append conv sel d0 src rest ys _ st' h
          | false =>
            rw [if_neg Bool.false_ne_true] at h ⊢
            exact convertLoop_false_append conv sel d0 src rest ys _ st' h

/-- `ConvertProfile.convert` unfolded past the source scandir. -/
theorem ConvertProfile_convert_eq (eager : Bool) (conv : ConvCb) (sel : ConvSel) (d0 : Stat)
    (src dst : FSNode) (es : List (String × FSNode))
    (hes : entriesOfF src = some es) :
    ConvertProfile_convert eager conv sel d0 src dst =
      match convertLoop eager conv sel d0 src (walkList true [] es) ⟨dst, [], [], [], []⟩ with
      | (st, some e) => (st, some e)
      | (st, none) =>
        match runPending conv src st.pending st.dst with
        | ((dst', inv), err) =>
          ({st with dst := dst', pending := [], invoked := st.invoked ++ inv}, err) := by
  rw [ConvertProfile_convert, hes]

/-- **C4, counterexample.** A pool worker may legally start a submitted
task at once (`eager = true` schedule of `apply_async`): on the source
with `a` and `b` both selected to `out`, the pass does fail naming the
duplicate destination, but the conversion routine has already been
invoked on `a` before the duplicate is detected — refuting "no
conversion work for any file is started before the duplicate is
detected". -/
theorem c4_duplicate_destination_counterexample :
    (ConvertProfile_convert true exConv dupSel exD0 dupSrc emptyDst).2 =
      some ("Duplicate destination path " ++ pathStr ["out"]) ∧
    (ConvertProfile_convert true exConv dupSel exD0 dupSrc emptyDst).1.invoked =
      [(["a"], ["out"])] := by
  constructor
  · rfl
  · rfl

/-- **C4, amended.** When two distinct source paths of the walk select
the same destination path, the pass fails hard naming the duplicate
destination; and on the pool schedule whose workers only run at the
result-collection barrier, no conversion routine has been invoked at
the moment of the failure. -/
theorem c4_duplicate_destination_amended
    (conv : ConvCb) (sel : ConvSel) (d0 : Stat) (src dst : FSNode)
    (es : List (String × FSNode)) (pre rest : List (Path × FSNode))
    (srcRel : Path) (srcNode : FSNode) (st : CState) (dstA : FSNode)
    (s d : Path) (flag : Bool)
    (hes : entriesOfF src = some es)
    (hwalk : walkList true [] es = pre ++ (srcRel, srcNode) :: rest)
    (hpre : convertLoop false conv sel d0 src pre ⟨dst, [], [], [], []⟩ = (st, none))
    (hsel : selectStep sel d0 srcRel srcNode st.dst = (dstA, .ok (s, d, flag)))
    (hdup : (st.seen.map Prod.fst).contains d = true) :
    ConvertProfile_convert false conv sel d0 src dst =
      ({st with dst := dstA}, some ("Duplicate destination path " ++ pathStr d)) ∧
    ({st with dst := dstA} : CState).invoked = [] := by
  have hinv : st.invoked = [] := by
    have h1 := convertLoop_false_invoked conv sel d0 src pre ⟨dst, [], [], [], []⟩
    rw [hpre] at h1
    exact h1
  refine ⟨?_, hinv⟩
  rw [ConvertProfile_convert_eq false conv sel d0 src dst es hes, hwalk,
    convertLoop_false_append conv sel d0 src pre ((srcRel, srcNode) :: rest) _ st hpre,
    convertLoop_cons_ok false conv sel d0 src srcNode srcRel rest st dstA s d flag hsel,
    if_pos hdup]

/-- Witness for the amended C4 theorem on the concrete duplicate
scenario, on the barrier schedule: the pass stops naming `out` and the
invocation trace is empty. -/
theorem c4_duplicate_destination_amended_witness :
    ConvertProfile_convert false exConv dupSel exD0 dupSrc emptyDst =
      ({ dst := emptyDst, ys := [(["a"], ["out"], true)], seen := [(["out"], ["a"])],
         pending := [(["a"], ["out"])], invoked := [] },
        some ("Duplicate destination path " ++ pathStr ["out"])) ∧
    ({ dst := emptyDst, ys := [(["a"], ["out"], true)], seen := [(["out"], ["a"])],
       pending := [(["a"], ["out"])], invoked := [] } : CState).invoked = [] :=
  c4_duplicate_destination_amended exConv dupSel exD0 dupSrc emptyDst
    [("a", .file ⟨6, 10, 100⟩ "A"), ("b", .file ⟨6, 20, 200⟩ "B")]
    [(["a"], .file ⟨6, 10, 100⟩ "A")] [] ["b"] (.file ⟨6, 20, 200⟩ "B")
    ⟨emptyDst, [(["a"], ["out"], true)], [(["out"], ["a"])], [(["a"], ["out"])], []⟩ emptyDst
    ["b"] ["out"] true
    rfl rfl rfl rfl rfl

/-! ### Lemmas about `ConvertProfile.clean` and the keep set -/

/-- A successful cleanup keeps exactly the literal paths in the keep
set: the flat path listing of the cleaned entries is the original
listing filtered by keep-membership. -/
theorem cleanEntriesC_flat (keep : List Path) :
    ∀ (rp : Path) (es es' : List (String × FSNode)),
      cleanEntriesC keep rp es = (es', none) →
      flatPaths.flatList rp es' =
        (flatPaths.flatList rp es).filter (fun q => keep.contains q)
  | rp, [], es', h => by
    have h2 : (([] : List (String × FSNode)), (none : Option String)) = (es', none) := h
    cases h2
    simp [flatPaths.flatList]
  | rp, (n, .file st c) :: rest, es', h => by
    rw [cleanEntriesC] at h
    split at h
    · rename_i kept e heq
      cases h
    · rename_i kept heq
      split at h
      rename_i rest' err heq2
      cases h
      have hrest := cleanEntriesC_flat keep rp rest rest' heq2
      rw [cleanOneC] at heq
      by_cases hk : keep.contains (rp ++ [n]) = true
      · rw [if_pos hk] at heq
        have heq3 : (some (FSNode.file st c), (none : Option String)) = (kept, none) := heq
        cases heq3
        have hk2 : (rp ++ [n]) ∈ keep := by simpa using hk
        simp [flatPaths.flatList, List.filter_cons, hk2, hrest]
      · rw [if_neg hk] at heq
        have heq3 : ((none : Option FSNode), (none : Option String)) = (kept, none) := heq
        cases heq3
        have hk2 : (rp ++ [n]) ∉ keep := by simpa using hk
        simp [flatPaths.flatList, List.filter_cons, hk2, hrest]
  | rp, (n, .symlink t r) :: rest, es', h => by
    rw [cleanEntriesC] at h
    split at h
    · rename_i kept e heq
      cases h
    · rename_i kept heq
      split at h
      rename_i rest' err heq2
      cases h
      have hrest := cleanEntriesC_flat keep rp rest rest' heq2
      rw [cleanOneC] at heq
      split at heq
      · rename_i r' e heqr
        cases heq
      · rename_i r' heqr
        by_cases hk : keep.contains (rp ++ [n]) = true
        · rw [if_pos hk] at heq
          have heq3 : (some (FSNode.symlink t r'), (none : Option String)) = (kept, none) := heq
          cases heq3
          have hk2 : (rp ++ [n]) ∈ keep := by simpa using hk
          simp [flatPaths.flatList, List.filter_cons, hk2, hrest]
        · rw [if_neg hk] at heq
          have heq3 : ((none : Option FSNode), (none : Option String)) = (kept, none) := heq
          cases heq3
          have hk2 : (rp ++ [n]) ∉ keep := by simpa using hk
          simp [flatPaths.flatList, List.filter_cons, hk2, hrest]
  | rp, (n, .dir st es0) :: rest, es', h => by
    rw [cleanEntriesC] at h
    split at h
    · rename_i kept e heq
      cases h
    · rename_i kept heq
      split at h
      rename_i rest' err heq2
      cases h
      have hrest := cleanEntriesC_flat keep rp rest rest' heq2
      rw [cleanOneC] at heq
      split at heq
      · rename_i es0' e heq0
        cases heq
      · rename_i es0' heq0
        have hes0 := cleanEntriesC_flat keep (rp ++ [n]) es0 es0' heq0
        by_cases hk : keep.contains (rp ++ [n]) = true
        · rw [if_pos hk] at heq
          have heq3 : (some (FSNode.dir st es0'), (none : Option String)) = (kept, none) := heq
          cases heq3
          have hk2 : (rp ++ [n]) ∈ keep := by simpa using hk
          simp [flatPaths.flatList, List.filter_cons, List.filter_append, hk2, hrest, hes0]
        · rw [if_neg hk] at heq
          by_cases hemp : es0'.isEmpty = true
          · rw [if_pos hemp] at heq
            have heq3 : ((none : Option FSNode), (none : Option String)) = (kept, none) := heq
            cases heq3
            have hes0' : es0' = [] := List.isEmpty_iff.mp hemp
            rw [hes0'] at hes0
            have hk2 : (rp ++ [n]) ∉ keep := by simpa using hk
            simp only [flatPaths.flatList] at hes0 ⊢
            simp only [List.filter_cons, List.filter_append]
            simp [hk2, hrest, ← hes0]
            intro a ha
            have hfa := List.filter_eq_nil_iff.mp hes0.symm a ha
            simpa using hfa
          · rw [if_neg hemp] at heq
            cases heq
termination_by rp es es' h => sizeOf es
decreasing_by all_goals first | (simp; done) | (simp; omega)

/-- The convert loop extends `relpath_dst_to_src` and the yield list in
lockstep: the keys of the map are exactly the destination paths of the
yields. -/
theorem convertLoop_seen_ys (eager : Bool) (conv : ConvCb) (sel : ConvSel) (d0 : Stat)
    (src : FSNode) :
    ∀ (es : List (Path × FSNode)) (st : CState),
      st.seen.map Prod.fst = st.ys.map (fun y => y.2.1) →
      ((convertLoop eager conv sel d0 src es st).1).seen.map Prod.fst =
        ((convertLoop eager conv sel d0 src es st).1).ys.map (fun y => y.2.1)
  | [], st, h => h
  | (srcRel, srcNode) :: rest, st, h => by
    cases hss : selectStep sel d0 srcRel srcNode st.dst with
    | mk dstA r =>
      cases r with
      | error e =>
        rw [convertLoop_cons_error eager conv sel d0 src srcNode srcRel rest st dstA e hss]
        exact h
      | ok v =>
        obtain ⟨s, d, flag⟩ := v
        rw [convertLoop_cons_ok eager conv sel d0 src srcNode srcRel rest st dstA s d flag hss]
        by_cases hd : (st.seen.map Prod.fst).contains d = true
        · rw [if_pos hd]; exact h
        · rw [if_neg hd]
          have hstep : (st.seen ++ [(d, s)]).map Prod.fst =
              (st.ys ++ [(s, d, flag)]).map (fun y => y.2.1) := by
            simp [h]
          cases flag with
          | true =>
            rw [if_pos rfl]
            cases eager with
            | true =>
              rw [if_pos rfl]
              cases hco : convert_one conv src dstA s d with
              | mk dst'' e? =>
                cases e? with
                | some e => exact hstep
                | none => exact convertLoop_seen_ys true conv sel d0 src rest _ hstep
            | false =>
              rw [if_neg Bool.false_ne_true]
              exact convertLoop_seen_ys false conv sel d0 src rest _ hstep
          | false =>
            rw [if_neg Bool.false_ne_true]
            exact convertLoop_seen_ys eager conv sel d0 src rest _ hstep

/-- `ConvertProfile.convert` on a non-directory source. -/
theorem ConvertProfile_convert_eq_none (eager : Bool) (conv : ConvCb) (sel : ConvSel)
    (d0 : Stat) (src dst : FSNode) (hes : entriesOfF src = none) :
    ConvertProfile_convert eager conv sel d0 src dst =
      (⟨dst, [], [], [], []⟩, some "NotADirectoryError: source") := by
  rw [ConvertProfile_convert, hes]

/-- **C1.** After a successful convert pass, the returned keep set (the
keys of `relpath_dst_to_src`) consists exactly of the destination paths
of every yield of the pass — directories, symlinked files, converted
files and up-to-date files alike — and a successful `clean(dst_keep)`
leaves exactly the destination entries whose path is in that set: the
destination's path listing afterwards is the previous listing filtered
by keep-membership, so no kept path is deleted and no stale path
survives. -/
theorem c1_keep_set_cleanup (eager : Bool) (conv : ConvCb) (sel : ConvSel) (d0 : Stat)
    (src dst : FSNode) (st : CState) (dst₂ : FSNode)
    (hconv : ConvertProfile_convert eager conv sel d0 src dst = (st, none))
    (hclean : ConvertProfile_clean (st.seen.map Prod.fst) st.dst = (dst₂, none)) :
    st.seen.map Prod.fst = st.ys.map (fun y => y.2.1) ∧
    flatPaths dst₂ = (flatPaths st.dst).filter
      (fun q => (st.seen.map Prod.fst).contains q) := by
  constructor
  · cases hes : entriesOfF src with
    | none =>
      rw [ConvertProfile_convert_eq_none eager conv sel d0 src dst hes] at hconv
      cases hconv
    | some es =>
      rw [ConvertProfile_convert_eq eager conv sel d0 src dst es hes] at hconv
      split at hconv
      · rename_i stL e heqL
        cases hconv
      · rename_i stL heqL
        split at hconv
        rename_i dst' inv err heqR
        cases hconv
        have h0 : ((⟨dst, [], [], [], []⟩ : CState)).seen.map Prod.fst =
            ((⟨dst, [], [], [], []⟩ : CState)).ys.map (fun y => y.2.1) := rfl
        have h1 := convertLoop_seen_ys eager conv sel d0 src (walkList true [] es)
          ⟨dst, [], [], [], []⟩ h0
        rw [heqL] at h1
        exact h1
  · cases hdst : st.dst with
    | file fst c =>
      rw [hdst] at hclean
      have hclean2 : ((FSNode.file fst c : FSNode),
          (some "NotADirectoryError: destination" : Option String)) = (dst₂, none) := hclean
      cases hclean2
    | symlink t r =>
      rw [hdst] at hclean
      have hclean2 : ((FSNode.symlink t r : FSNode),
          (some "NotADirectoryError: destination" : Option String)) = (dst₂, none) := hclean
      cases hclean2
    | dir stt es0 =>
      rw [hdst] at hclean
      have hclean2 : (match cleanEntriesC (st.seen.map Prod.fst) [] es0 with
          | (es', err) => ((FSNode.dir stt es' : FSNode), err)) = (dst₂, none) := hclean
      split at hclean2
      rename_i es0' err heq0
      cases hclean2
      have hf := cleanEntriesC_flat (st.seen.map Prod.fst) [] es0 es0' heq0
      simp only [flatPaths]
      exact hf

/-- Witness for C1 on the symlink-everything scenario: the keep set is
`a, b` (the two yields) and cleanup deletes nothing. -/
theorem c1_keep_set_cleanup_witness :
    c1St.seen.map Prod.fst = c1St.ys.map (fun y => y.2.1) ∧
    flatPaths c1Dst = (flatPaths c1St.dst).filter
      (fun q => (c1St.seen.map Prod.fst).contains q) :=
  c1_keep_set_cleanup false exConv c1Sel exD0 dupSrc emptyDst c1St c1Dst rfl rfl

/-! ### Lemmas about `fix_dir_stats` and the filter pass -/

theorem lookupEs_cons (n : String) (m : FSNode) (rest : List (String × FSNode))
    (c : String) (q : Path) :
    lookupEs ((n, m) :: rest) (c :: q) =
      if c = n then lookupPath m q else lookupEs rest (c :: q) := by
  by_cases hc : c = n
  · rw [if_pos hc]
    simp [lookupEs, findEntry, hc]
  · rw [if_neg hc]
    simp [lookupEs, findEntry, hc]

theorem fixEntries_stat (src : FSNode) :
    ∀ (rp : Path) (es es' : List (String × FSNode)),
      fixEntries src rp es = (es', none) →
      ∀ (p : Path) (dstat : Stat) (es2 : List (String × FSNode)),
        lookupEs es' p = some (.dir dstat es2) →
        (lookupF src (rp ++ p)).bind statFollow = some dstat
  | rp, [], es', h => by
    have h2 : (([] : List (String × FSNode)), (none : Option String)) = (es', none) := h
    cases h2
    intro p dstat es2 hl
    cases p with
    | nil => simp [lookupEs] at hl
    | cons c q => simp [lookupEs, findEntry] at hl
  | rp, (n, .file st c) :: rest, es', h => by
    rw [fixEntries] at h
    split at h
    · rename_i nd' e heq
      cases h
    · rename_i nd' heq
      split at h
      rename_i rest' err heq2
      cases h
      have hrest := fixEntries_stat src rp rest rest' heq2
      have heq3 : ((FSNode.file st c : FSNode), (none : Option String)) = (nd', none) := heq
      cases heq3
      intro p dstat es2 hl
      cases p with
      | nil => simp [lookupEs] at hl
      | cons c₀ q =>
        rw [lookupEs_cons] at hl
        by_cases hc : c₀ = n
        · rw [if_pos hc] at hl
          cases q with
          | nil => simp [lookupPath] at hl
          | cons c₁ q' => simp [lookupPath] at hl
        · rw [if_neg hc] at hl
          exact hrest (c₀ :: q) dstat es2 hl
  | rp, (n, .symlink t r) :: rest, es', h => by
    rw [fixEntries] at h
    split at h
    · rename_i nd' e heq
      cases h
    · rename_i nd' heq
      split at h
      rename_i rest' err heq2
      cases h
      have hrest := fixEntries_stat src rp rest rest' heq2
      have hsym : ∀ (r₀ : Option FSNode), nd' = FSNode.symlink t r₀ →
          ∀ (p : Path) (dstat : Stat) (es2 : List (String × FSNode)),
            lookupEs ((n, nd') :: rest') p = some (.dir dstat es2) →
            (lookupF src (rp ++ p)).bind statFollow = some dstat := by
        intro r₀ hnd p dstat es2 hl
        subst hnd
        cases p with
        | nil => simp [lookupEs] at hl
        | cons c₀ q =>
          rw [lookupEs_cons] at hl
          by_cases hc : c₀ = n
          · rw [if_pos hc] at hl
            cases q with
            | nil => simp [lookupPath] at hl
            | cons c₁ q' => simp [lookupPath] at hl
          · rw [if_neg hc] at hl
            exact hrest (c₀ :: q) dstat es2 hl
      rw [fixOne] at heq
      split at heq
      · split at heq
        · cases heq
        · rename_i sst hst
          split at heq
          rename_i r' err₁ hres
          cases heq
          exact hsym r' rfl
      · cases heq
        exact hsym r rfl
  | rp, (n, .dir dstat0 es0) :: rest, es', h => by
    rw [fixEntries] at h
    split at h
    · rename_i nd' e heq
      cases h
    · rename_i nd' heq
      split at h
      rename_i rest' err heq2
      cases h
      have hrest := fixEntries_stat src rp rest rest' heq2
      rw [fixOne] at heq
      split at heq
      · cases heq
      · rename_i sst hst
        split at heq
        rename_i es0' err₁ heq0
        cases heq
        have hrec := fixEntries_stat src (rp ++ [n]) es0 es0' heq0
        intro p dstat es2 hl
        cases p with
        | nil => simp [lookupEs] at hl
        | cons c₀ q =>
          rw [lookupEs_cons] at hl
          by_cases hc : c₀ = n
          · rw [if_pos hc] at hl
            subst hc
            cases q with
            | nil =>
              have hl2 : FSNode.dir sst es0' = FSNode.dir dstat es2 := by
                simpa [lookupPath] using hl
              injection hl2 with h3 h4
              rw [show rp ++ [c₀] = rp ++ c₀ :: ([] : List String) by simp] at hst
              rw [← h3]
              simpa using hst
            | cons c₁ q' =>
              have hl2 : lookupEs es0' (c₁ :: q') = some (.dir dstat es2) := hl
              have hres := hrec (c₁ :: q') dstat es2 hl2
              rw [show rp ++ c₀ :: c₁ :: q' = (rp ++ [c₀]) ++ (c₁ :: q') by simp]
              exact hres
          · rw [if_neg hc] at hl
            exact hrest (c₀ :: q) dstat es2 hl
termination_by rp es es' h => sizeOf es
decreasing_by all_goals first | (simp; done) | (simp; omega)

theorem findEntry_setEntry (c c₀ : String) (v : FSNode) :
    ∀ es : List (String × FSNode),
      findEntry (setEntry es c v) c₀ = if c₀ = c then some v else findEntry es c₀
  | [] => by
    by_cases hc : c₀ = c
    · simp [setEntry, findEntry, hc]
    · simp [setEntry, findEntry, hc]
  | (m, w) :: rest => by
    rw [setEntry]
    by_cases hcm : c = m
    · rw [if_pos hcm]
      by_cases hc : c₀ = c
      · simp [findEntry, hc]
      · subst hcm
        simp [findEntry, hc]
    · rw [if_neg hcm]
      by_cases hlt : strLt c m = true
      · rw [if_pos hlt]
        by_cases hc : c₀ = c
        · simp [findEntry, hc]
        · simp [findEntry, hc]
      · rw [if_neg hlt]
        by_cases hc₀m : c₀ = m
        · have hc : ¬ c₀ = c := by rw [hc₀m]; exact fun he => hcm he.symm
          subst hc₀m
          rw [findEntry, if_pos rfl, if_neg hc, findEntry, if_pos rfl]
        · rw [findEntry]
          rw [if_neg hc₀m, findEntry, if_neg hc₀m]
          exact findEntry_setEntry c c₀ v rest

theorem makedirs_shape (d0 : Stat) :
    ∀ (t : FSNode) (q : Path) (t' : FSNode), makedirs d0 t q = some t' →
      ∃ s es es', t = .dir s es ∧ t' = .dir s es'
  | .dir s es, [], t', h => by
    have h2 : (some (FSNode.dir s es) : Option FSNode) = some t' := h
    cases h2
    exact ⟨s, es, es, rfl, rfl⟩
  | .dir s es, c :: q', t', h => by
    rw [makedirs] at h
    split at h
    · rename_i m hm
      cases hmk : makedirs d0 m q' with
      | none => rw [hmk] at h; cases h
      | some m' =>
        rw [hmk] at h
        have h2 : (some (FSNode.dir s (setEntry es c m')) : Option FSNode) = some t' := h
        cases h2
        exact ⟨s, es, setEntry es c m', rfl, rfl⟩
    · rename_i hm
      cases hmk : makedirs d0 (.dir d0 []) q' with
      | none => rw [hmk] at h; cases h
      | some m' =>
        rw [hmk] at h
        have h2 : (some (FSNode.dir s (setEntry es c m')) : Option FSNode) = some t' := h
        cases h2
        exact ⟨s, es, setEntry es c m', rfl, rfl⟩
  | .file st c₁, q, t', h => by cases q <;> exact absurd h (by rw [makedirs]; simp)
  | .symlink t₁ r, q, t', h => by cases q <;> exact absurd h (by rw [makedirs]; simp)

theorem setAtPath_shape :
    ∀ (t : FSNode) (q : Path) (v : FSNode) (t' : FSNode), setAtPath t q v = some t' →
      ∃ s es es', t = .dir s es ∧ t' = .dir s es'
  | .dir s es, [c], v, t', h => by
    have h2 : (some (FSNode.dir s (setEntry es c v)) : Option FSNode) = some t' := h
    cases h2
    exact ⟨s, es, setEntry es c v, rfl, rfl⟩
  | .dir s es, c :: c2 :: q', v, t', h => by
    rw [setAtPath] at h
    split at h
    · rename_i m hm
      cases hsp : setAtPath m (c2 :: q') v with
      | none => rw [hsp] at h; cases h
      | some m' =>
        rw [hsp] at h
        have h2 : (some (FSNode.dir s (setEntry es c m')) : Option FSNode) = some t' := h
        cases h2
        exact ⟨s, es, setEntry es c m', rfl, rfl⟩
    · cases h
  | .dir s es, [], v, t', h => by cases h
  | .file st c₁, q, v, t', h => by cases q <;> cases h
  | .symlink t₁ r, q, v, t', h => by cases q <;> cases h

theorem setDirStatAt_root (sst dstat : Stat) (es2 : List (String × FSNode)) :
    ∀ (m : FSNode) (q : Path), setDirStatAt m q sst = .dir dstat es2 →
      ∃ sm esm, m = .dir sm esm ∧ (dstat = sm ∨ (q = [] ∧ dstat = sst))
  | .dir sm esm, [], h => by
    have h2 : (FSNode.dir sst esm : FSNode) = .dir dstat es2 := h
    injection h2 with h3 h4
    exact ⟨sm, esm, rfl, Or.inr ⟨rfl, h3.symm⟩⟩
  | .dir sm esm, c :: q', h => by
    rw [setDirStatAt] at h
    split at h
    · rename_i m₁ hm₁
      injection h with h1 h2
      exact ⟨sm, esm, rfl, Or.inl h1.symm⟩
    · injection h with h1 h2
      exact ⟨sm, esm, rfl, Or.inl h1.symm⟩
  | .file st c₁, q, h => by cases q <;> cases h
  | .symlink t₁ r, q, h => by cases q <;> cases h

theorem lookupPath_setDirStatAt :
    ∀ (t : FSNode) (q : Path) (sst : Stat) (p : Path) (dstat : Stat)
      (es2 : List (String × FSNode)),
      p ≠ [] →
      lookupPath (setDirStatAt t q sst) p = some (.dir dstat es2) →
      (p = q ∧ dstat = sst ∧ ∃ st₀ es₀, lookupPath t p = some (.dir st₀ es₀))
      ∨ (∃ es₀, lookupPath t p = some (.dir dstat es₀))
  | .dir s0 es, [], sst, p, dstat, es2, hp, hl => by
    cases p with
    | nil => exact absurd rfl hp
    | cons c p' =>
      right
      exact ⟨es2, hl⟩
  | .dir s0 es, c :: q', sst, p, dstat, es2, hp, hl => by
    rw [setDirStatAt] at hl
    split at hl
    · rename_i m hm
      cases p with
      | nil => exact absurd rfl hp
      | cons c₀ p' =>
        rw [lookupPath] at hl
        rw [findEntry_setEntry] at hl
        by_cases hc : c₀ = c
        · rw [if_pos hc] at hl
          subst hc
          cases p' with
          | nil =>
            have hl2 : setDirStatAt m q' sst = .dir dstat es2 := by
              simpa [lookupPath] using hl
            rcases setDirStatAt_root sst dstat es2 m q' hl2 with ⟨sm, esm, hmeq, hd⟩
            rcases hd with hd | ⟨hq', hd⟩
            · right
              refine ⟨esm, ?_⟩
              rw [lookupPath, hm, hmeq, hd]
              rfl
            · left
              subst hq'
              refine ⟨rfl, hd, sm, esm, ?_⟩
              rw [lookupPath, hm, hmeq]
              rfl
          | cons c₁ q₁ =>
            have hl2 : lookupPath (setDirStatAt m q' sst) (c₁ :: q₁) =
                some (.dir dstat es2) := hl
            rcases lookupPath_setDirStatAt m q' sst (c₁ :: q₁) dstat es2 (by simp) hl2 with
              ⟨hpq, hd, st₀, es₀, hold⟩ | ⟨es₀, hold⟩
            · left
              refine ⟨by rw [hpq], hd, st₀, es₀, ?_⟩
              rw [lookupPath, hm]
              exact hold
            · right
              refine ⟨es₀, ?_⟩
              rw [lookupPath, hm]
              exact hold
        · rw [if_neg hc] at hl
          right
          refine ⟨es2, ?_⟩
          rw [lookupPath, hl]
    · right
      exact ⟨es2, hl⟩
  | .file st c₁, q, sst, p, dstat, es2, hp, hl => by
    right
    cases q with
    | nil => exact ⟨es2, hl⟩
    | cons a b => exact ⟨es2, hl⟩
  | .symlink t₁ r, q, sst, p, dstat, es2, hp, hl => by
    right
    cases q with
    | nil => exact ⟨es2, hl⟩
    | cons a b => exact ⟨es2, hl⟩

theorem lookupPath_makedirs (d0 : Stat) :
    ∀ (t : FSNode) (q : Path) (t' : FSNode), makedirs d0 t q = some t' →
      ∀ (p : Path) (dstat : Stat) (es2 : List (String × FSNode)),
        p ≠ [] →
        lookupPath t' p = some (.dir dstat es2) →
        (∃ es₀, lookupPath t p = some (.dir dstat es₀)) ∨ (dstat = d0 ∧ p <+: q)
  | .dir s es, [], t', h, p, dstat, es2, hp, hl => by
    have h2 : (some (FSNode.dir s es) : Option FSNode) = some t' := h
    cases h2
    exact Or.inl ⟨es2, hl⟩
  | .dir s es, c :: q', t', h, p, dstat, es2, hp, hl => by
    rw [makedirs] at h
    split at h
    · rename_i m hm
      cases hmk : makedirs d0 m q' with
      | none => rw [hmk] at h; cases h
      | some m' =>
        rw [hmk] at h
        have h2 : (some (FSNode.dir s (setEntry es c m')) : Option FSNode) = some t' := h
        cases h2
        cases p with
        | nil => exact absurd rfl hp
        | cons c₀ p' =>
          rw [lookupPath, findEntry_setEntry] at hl
          by_cases hc : c₀ = c
          · rw [if_pos hc] at hl
            subst hc
            cases p' with
            | nil =>
              have hm2 : m' = .dir dstat es2 := by simpa [lookupPath] using hl
              rcases makedirs_shape d0 m q' m' hmk with ⟨sm, esm, esm', hmeq, hmeq'⟩
              rw [hmeq'] at hm2
              injection hm2 with h3 h4
              refine Or.inl ⟨esm, ?_⟩
              rw [lookupPath, hm, hmeq, h3]
              rfl
            | cons c₁ q₁ =>
              rcases lookupPath_makedirs d0 m q' m' hmk (c₁ :: q₁) dstat es2 (by simp)
                  hl with ⟨es₀, hold⟩ | ⟨hd, hpre⟩
              · refine Or.inl ⟨es₀, ?_⟩
                rw [lookupPath, hm]
                exact hold
              · exact Or.inr ⟨hd, List.cons_prefix_cons.mpr ⟨rfl, hpre⟩⟩
          · rw [if_neg hc] at hl
            refine Or.inl ⟨es2, ?_⟩
            rw [lookupPath, hl]
    · rename_i hm
      cases hmk : makedirs d0 (.dir d0 []) q' with
      | none => rw [hmk] at h; cases h
      | some m' =>
        rw [hmk] at h
        have h2 : (some (FSNode.dir s (setEntry es c m')) : Option FSNode) = some t' := h
        cases h2
        cases p with
        | nil => exact absurd rfl hp
        | cons c₀ p' =>
          rw [lookupPath, findEntry_setEntry] at hl
          by_cases hc : c₀ = c
          · rw [if_pos hc] at hl
            subst hc
            cases p' with
            | nil =>
              have hm2 : m' = .dir dstat es2 := by simpa [lookupPath] using hl
              rcases makedirs_shape d0 _ q' m' hmk with ⟨sm, esm, esm', hmeq, hmeq'⟩
              injection hmeq with h5 h6
              rw [hmeq'] at hm2
              injection hm2 with h3 h4
              refine Or.inr ⟨(h5.trans h3).symm, by simp⟩
            | cons c₁ q₁ =>
              rcases lookupPath_makedirs d0 _ q' m' hmk (c₁ :: q₁) dstat es2 (by simp)
                  hl with ⟨es₀, hold⟩ | ⟨hd, hpre⟩
              · rw [show lookupPath (FSNode.dir d0 []) (c₁ :: q₁) = none by
                  simp [lookupPath, findEntry]] at hold
                cases hold
              · exact Or.inr ⟨hd, List.cons_prefix_cons.mpr ⟨rfl, hpre⟩⟩
          · rw [if_neg hc] at hl
            refine Or.inl ⟨es2, ?_⟩
            rw [lookupPath, hl]
  | .file st c₁, q, t', h, p, dstat, es2, hp, hl => by
    cases q with
    | nil => cases h
    | cons a b => cases h
  | .symlink t₁ r, q, t', h, p, dstat, es2, hp, hl => by
    cases q with
    | nil => cases h
    | cons a b => cases h

theorem lookupPath_setAtPath_symlink :
    ∀ (t : FSNode) (q : Path) (a : String) (r : Option FSNode) (t' : FSNode),
      setAtPath t q (.symlink a r) = some t' →
      ∀ (p : Path) (dstat : Stat) (es2 : List (String × FSNode)), p ≠ [] →
        lookupPath t' p = some (.dir dstat es2) →
        ∃ es₀, lookupPath t p = some (.dir dstat es₀)
  | .dir s es, [c], a, r, t', h, p, dstat, es2, hp, hl => by
    have h2 : (some (FSNode.dir s (setEntry es c (.symlink a r))) : Option FSNode) =
        some t' := h
    cases h2
    cases p with
    | nil => exact absurd rfl hp
    | cons c₀ p' =>
      rw [lookupPath, findEntry_setEntry] at hl
      by_cases hc : c₀ = c
      · rw [if_pos hc] at hl
        cases p' with
        | nil => simp [lookupPath] at hl
        | cons c₁ q₁ => simp [lookupPath] at hl
      · rw [if_neg hc] at hl
        refine ⟨es2, ?_⟩
        rw [lookupPath, hl]
  | .dir s es, c :: c2 :: q', a, r, t', h, p, dstat, es2, hp, hl => by
    rw [setAtPath] at h
    split at h
    · rename_i m hm
      cases hsp : setAtPath m (c2 :: q') (.symlink a r) with
      | none => rw [hsp] at h; cases h
      | some m' =>
        rw [hsp] at h
        have h2 : (some (FSNode.dir s (setEntry es c m')) : Option FSNode) = some t' := h
        cases h2
        cases p with
        | nil => exact absurd rfl hp
        | cons c₀ p' =>
          rw [lookupPath, findEntry_setEntry] at hl
          by_cases hc : c₀ = c
          · rw [if_pos hc] at hl
            subst hc
            cases p' with
            | nil =>
              have hm2 : m' = .dir dstat es2 := by simpa [lookupPath] using hl
              rcases setAtPath_shape m (c2 :: q') (.symlink a r) m' hsp with
                ⟨sm, esm, esm', hmeq, hmeq'⟩
              rw [hmeq'] at hm2
              injection hm2 with h3 h4
              refine ⟨esm, ?_⟩
              rw [lookupPath, hm, hmeq, h3]
              rfl
            | cons c₁ q₁ =>
              rcases lookupPath_setAtPath_symlink m (c2 :: q') a r m' hsp (c₁ :: q₁)
                  dstat es2 (by simp) hl with ⟨es₀, hold⟩
              refine ⟨es₀, ?_⟩
              rw [lookupPath, hm]
              exact hold
          · rw [if_neg hc] at hl
            refine ⟨es2, ?_⟩
            rw [lookupPath, hl]
    · cases h
  | .dir s es, [], a, r, t', h, p, dstat, es2, hp, hl => by cases h
  | .file st c₁, q, a, r, t', h, p, dstat, es2, hp, hl => by
    cases q with
    | nil => cases h
    | cons x xs => cases xs with | nil => cases h | cons y ys => cases h
  | .symlink t₁ r₁, q, a, r, t', h, p, dstat, es2, hp, hl => by
    cases q with
    | nil => cases h
    | cons x xs => cases xs with | nil => cases h | cons y ys => cases h

theorem filterClean_success_nil :
    ∀ (rp : Path) (es es' : List (String × FSNode)),
      filterClean rp es = (es', none) → es' = []
  | rp, [], es', h => by
    simp only [filterClean] at h
    cases h
    rfl
  | rp, (n, .file st c) :: rest, es', h => by
    simp only [filterClean] at h
    cases h
  | rp, (n, .symlink t r) :: rest, es', h => by
    simp only [filterClean] at h
    exact filterClean_success_nil rp rest es' h
  | rp, (n, .dir st es0) :: rest, es', h => by
    simp only [filterClean] at h
    split at h
    · rename_i e heq
      cases h
    · exact filterClean_success_nil rp rest es' h
termination_by rp es es' h => sizeOf es
decreasing_by all_goals first | (simp; done) | (simp; omega)

theorem lookupF_child (src srcNode child : FSNode) (srcRel : Path) (name : String)
    (contents : List (String × FSNode))
    (hsrc : lookupF src srcRel = some srcNode)
    (hcont : entriesOfF srcNode = some contents)
    (hfc : findEntry contents name = some child) :
    lookupF src (srcRel ++ [name]) = some child := by
  rw [lookupF_append, hsrc, Option.some_bind, lookupF_step, hcont, Option.some_bind, hfc,
    Option.some_bind]
  rfl

theorem setDirStatAt_endpoint (sst : Stat) :
    ∀ (t : FSNode) (q : Path) (st₀ : Stat) (es₀ : List (String × FSNode)),
      lookupPath t q = some (.dir st₀ es₀) →
      lookupPath (setDirStatAt t q sst) q = some (.dir sst es₀)
  | t, [], st₀, es₀, h => by
    simp only [lookupPath] at h
    cases h
    rfl
  | .dir s es, c :: q', st₀, es₀, h => by
    rw [lookupPath] at h
    cases hm : findEntry es c with
    | none => rw [hm] at h; cases h
    | some m =>
      rw [hm] at h
      rw [setDirStatAt, hm, lookupPath, findEntry_setEntry, if_pos rfl]
      exact setDirStatAt_endpoint sst m q' st₀ es₀ h
  | .file st c₁, c :: q', st₀, es₀, h => by cases h
  | .symlink t₁ r, c :: q', st₀, es₀, h => by cases h

theorem prefix_ne_dropLast (p l : List String) (h : p <+: l) (hne : p ≠ l) :
    p <+: l.dropLast := by
  obtain ⟨t, rfl⟩ := h
  cases t with
  | nil => exact absurd (by simp) hne
  | cons x xs =>
    rw [List.dropLast_append_of_ne_nil _ (by simp)]
    exact List.prefix_append _ _

theorem isDirF_dir (s : Stat) (es : List (String × FSNode)) :
    isDirF (.dir s es) = true := rfl

set_option maxHeartbeats 1600000 in
mutual

theorem filter_dir_stats (sel : SelectCb) (d0 : Stat) (src : FSNode) (srcNode : FSNode)
    (srcRel dstRel : Path) (dst dst' : FSNode) (stamps : List (Path × Path × Stat))
    (hsrc : lookupF src srcRel = some srcNode)
    (hfd : filter_dir sel d0 srcNode srcRel dstRel dst = (dst', stamps, none)) :
    ∀ (p : Path) (dstat : Stat) (es2 : List (String × FSNode)), p ≠ [] →
      lookupPath dst' p = some (.dir dstat es2) →
      (∃ s, (s, p, dstat) ∈ stamps ∧ (lookupF src s).bind statFollow = some dstat)
      ∨ (∃ es₀, lookupPath dst p = some (.dir dstat es₀))
      ∨ (dstat = d0 ∧ p <+: dstRel ∧ p ≠ dstRel) := by
  intro p dstat es2 hp hl
  rw [filter_dir.eq_def] at hfd
  split at hfd
  · rename_i sst contents hr
    have hgood : (lookupF src srcRel).bind statFollow = some sst := by
      rw [hsrc, Option.some_bind, statFollow, hr, Option.some_bind]
      rfl
    have hcont : entriesOfF srcNode = some contents := by
      rw [entriesOfF, hr]
    split at hfd
    · cases hfd
    · rename_i keep hsel
      split at hfd
      · cases hfd
      · rename_i dstA stampsA heqI
        split at hfd
        · rename_i hcond
          cases hfd
          rcases lookupPath_setDirStatAt dstA dstRel sst p dstat es2 hp hl with
            ⟨hpq, hds, st₀, es₀, hold⟩ | ⟨es₀, hold⟩
          · subst hpq
            subst hds
            exact Or.inl ⟨srcRel, by simp, hgood⟩
          · by_cases hpd : p = dstRel
            · subst hpd
              have hend := setDirStatAt_endpoint sst dstA p dstat es₀ hold
              rw [hl] at hend
              injection hend with hend1
              injection hend1 with hend2 hend3
              exact Or.inl ⟨srcRel, by rw [hend2]; simp, by rw [hend2]; exact hgood⟩
            · rcases filterItems_stats sel d0 src srcNode contents srcRel dstRel keep
                dst dstA stampsA hsrc hcont heqI p dstat es₀ hp hold with
                ⟨s, hmem, hg⟩ | hold2 | ⟨hd, hpre⟩
              · exact Or.inl ⟨s, by simp [hmem], hg⟩
              · exact Or.inr (Or.inl hold2)
              · exact Or.inr (Or.inr ⟨hd, hpre, hpd⟩)
        · rename_i hcond
          cases hfd
          rcases filterItems_stats sel d0 src srcNode contents srcRel dstRel keep
            dst dst' stamps hsrc hcont heqI p dstat es2 hp hl with
            ⟨s, hmem, hg⟩ | hold2 | ⟨hd, hpre⟩
          · exact Or.inl ⟨s, hmem, hg⟩
          · exact Or.inr (Or.inl hold2)
          · by_cases hpd : p = dstRel
            · exfalso
              apply hcond
              constructor
              · rw [← hpd]; exact hp
              · rw [← hpd, hl]
                rfl
            · exact Or.inr (Or.inr ⟨hd, hpre, hpd⟩)
  · cases hfd
termination_by (sizeOf srcNode, 0)
decreasing_by
  all_goals exact Prod.Lex.left _ _ (sizeOf_resolved_entries_lt _ _ _ (by assumption))

theorem filterItems_stats (sel : SelectCb) (d0 : Stat) (src : FSNode) (srcNode : FSNode)
    (contents : List (String × FSNode)) (srcRel dstRel : Path)
    (items : List (String × Option Path)) (dst dst' : FSNode)
    (stamps : List (Path × Path × Stat))
    (hsrc : lookupF src srcRel = some srcNode)
    (hcont : entriesOfF srcNode = some contents)
    (hfi : filterItems sel d0 srcNode contents srcRel dstRel items dst =
      (dst', stamps, none)) :
    ∀ (p : Path) (dstat : Stat) (es2 : List (String × FSNode)), p ≠ [] →
      lookupPath dst' p = some (.dir dstat es2) →
      (∃ s, (s, p, dstat) ∈ stamps ∧ (lookupF src s).bind statFollow = some dstat)
      ∨ (∃ es₀, lookupPath dst p = some (.dir dstat es₀))
      ∨ (dstat = d0 ∧ p <+: dstRel) := by
  intro p dstat es2 hp hl
  match items with
  | [] =>
    rw [filterItems.eq_1] at hfi
    cases hfi
    exact Or.inr (Or.inl ⟨es2, hl⟩)
  | (name, ren) :: rest =>
    rw [filterItems.eq_2] at hfi
    split at hfi
    · cases hfi
    · rename_i hcross
      split at hfi
      · rename_i hfc
        rcases filterItems_stats sel d0 src srcNode contents srcRel dstRel rest
          dst dst' stamps hsrc hcont hfi p dstat es2 hp hl with h1 | h2 | h3
        · exact Or.inl h1
        · exact Or.inr (Or.inl h2)
        · exact Or.inr (Or.inr h3)
      · rename_i child hfc
        by_cases hd : isDirF child = true
        · rw [if_pos hd] at hfi
          rcases hfd : filter_dir sel d0 child (srcRel ++ [name])
              (ren.getD (dstRel ++ [name])) dst with ⟨dstA, stampsA, errA⟩
          cases errA with
          | some e =>
            try simp only [hfd] at hfi
            cases hfi
          | none =>
            try simp only [hfd] at hfi
            rcases hfi2 : filterItems sel d0 srcNode contents srcRel dstRel rest dstA
              with ⟨dstB, stampsB, errB⟩
            try simp only [hfi2] at hfi
            cases hfi
            have hsrcChild := lookupF_child src srcNode child srcRel name contents
              hsrc hcont hfc
            rcases filterItems_stats sel d0 src srcNode contents srcRel dstRel rest
              dstA _ _ hsrc hcont hfi2 p dstat es2 hp hl with
              ⟨s, hmem, hg⟩ | ⟨es₀, hold⟩ | ⟨hdd, hpre⟩
            · exact Or.inl ⟨s, by simp [hmem], hg⟩
            · rcases filter_dir_stats sel d0 src child (srcRel ++ [name])
                (ren.getD (dstRel ++ [name])) dst dstA stampsA hsrcChild hfd
                p dstat es₀ hp hold with
                ⟨s, hmem, hg⟩ | hold2 | ⟨hdd, hpre, hne⟩
              · exact Or.inl ⟨s, by simp [hmem], hg⟩
              · exact Or.inr (Or.inl hold2)
              · refine Or.inr (Or.inr ⟨hdd, ?_⟩)
                have hdrop : (ren.getD (dstRel ++ [name])).dropLast = dstRel := by
                  simpa using hcross
                rw [← hdrop]
                exact prefix_ne_dropLast p _ hpre hne
            · exact Or.inr (Or.inr ⟨hdd, hpre⟩)
        · rw [if_neg hd] at hfi
          cases hmk : makedirs d0 dst dstRel with
          | none =>
            try simp only [hmk] at hfi
            cases hfi
          | some dstM =>
            try simp only [hmk] at hfi
            cases hlp : lookupPath dstM (ren.getD (dstRel ++ [name])) with
            | some w =>
              try simp only [hlp] at hfi
              cases hfi
            | none =>
              try simp only [hlp] at hfi
              cases hsp : setAtPath dstM (ren.getD (dstRel ++ [name]))
                  (.symlink (pathStr (srcRel ++ [name])) (resolveNode child)) with
              | none =>
                try simp only [hsp] at hfi
                cases hfi
              | some dstS =>
                try simp only [hsp] at hfi
                rcases filterItems_stats sel d0 src srcNode contents srcRel dstRel rest
                  dstS dst' stamps hsrc hcont hfi p dstat es2 hp hl with
                  h1 | ⟨es₀, hold⟩ | h3
                · exact Or.inl h1
                · rcases lookupPath_setAtPath_symlink dstM _ _ _ dstS hsp p dstat es₀
                    hp hold with ⟨es₁, hold2⟩
                  rcases lookupPath_makedirs d0 dst dstRel dstM hmk p dstat es₁ hp
                    hold2 with ⟨es₃, hold3⟩ | ⟨hdd, hpre⟩
                  · exact Or.inr (Or.inl ⟨es₃, hold3⟩)
                  · exact Or.inr (Or.inr ⟨hdd, hpre⟩)
                · exact Or.inr (Or.inr h3)
termination_by (sizeOf contents, items.length)
decreasing_by
  all_goals first
    | exact Prod.Lex.left _ _ (sizeOf_findEntry_lt _ _ _ (by assumption))
    | exact Prod.Lex.right _ (by simp)

end

/-- **C9.** Directory stat mirroring.  After a successful Convert
Variant generation pass, every literal destination directory (root
excluded) carries exactly the stat of the source node at the same
relative path (`fix_dir_stats` ran last); after a successful Filter
Variant generation pass, every literal destination directory is stamped:
the pass performed a stat-copy `(s, p, stat)` for it, and that stat is
the stat of the source directory `s` it was filtered from. -/
theorem c9_dir_stat_mirroring
    (eager : Bool) (conv : ConvCb) (sel : ConvSel) (d0 : Stat)
    (src dst dstC : FSNode)
    (selF : SelectCb) (srcF dstI dstF : FSNode) (stamps : List (Path × Path × Stat))
    (hgenC : ConvertProfile_generate eager conv sel d0 src dst = (dstC, none))
    (hgenF : FilterProfile_generate selF d0 srcF dstI = (dstF, stamps, none)) :
    (∀ (p : Path) (dstat : Stat) (es2 : List (String × FSNode)), p ≠ [] →
      lookupPath dstC p = some (.dir dstat es2) →
      (lookupF src p).bind statFollow = some dstat) ∧
    (∀ (p : Path) (dstat : Stat) (es2 : List (String × FSNode)), p ≠ [] →
      lookupPath dstF p = some (.dir dstat es2) →
      ∃ s, (s, p, dstat) ∈ stamps ∧ (lookupF srcF s).bind statFollow = some dstat) := by
  constructor
  · intro p dstat es2 hp hl
    rw [ConvertProfile_generate] at hgenC
    split at hgenC
    · cases hgenC
    · rename_i st heqc
      split at hgenC
      · cases hgenC
      · rename_i dst2 heqcl
        rcases dst2 with ⟨fst2, fc2⟩ | ⟨lt2, lr2⟩ | ⟨st2, es2p⟩
        · have hgenC2 : ((FSNode.file fst2 fc2 : FSNode),
              (some "NotADirectoryError: destination" : Option String)) = (dstC, none) := hgenC
          cases hgenC2
        · have hgenC2 : ((FSNode.symlink lt2 lr2 : FSNode),
              (some "NotADirectoryError: destination" : Option String)) = (dstC, none) := hgenC
          cases hgenC2
        · have hgenC2 : (match fixEntries src [] es2p with
              | (es'', err) => ((FSNode.dir st2 es'' : FSNode), err)) = (dstC, none) := hgenC
          split at hgenC2
          rename_i es'' err heqf
          cases hgenC2
          cases p with
          | nil => exact absurd rfl hp
          | cons c q =>
            have hle : lookupEs es'' (c :: q) = some (.dir dstat es2) := hl
            have hres := fixEntries_stat src [] es2p es'' heqf (c :: q) dstat es2 hle
            simpa using hres
  · intro p dstat es2 hp hl
    rcases dstI with ⟨fst0, fc0⟩ | ⟨lt0, lr0⟩ | ⟨st0, es0⟩
    · have hgenF2 : ((FSNode.file fst0 fc0 : FSNode), ([] : List (Path × Path × Stat)),
          (some "NotADirectoryError: destination" : Option String)) =
          (dstF, stamps, none) := hgenF
      cases hgenF2
    · have hgenF2 : ((FSNode.symlink lt0 lr0 : FSNode), ([] : List (Path × Path × Stat)),
          (some "NotADirectoryError: destination" : Option String)) =
          (dstF, stamps, none) := hgenF
      cases hgenF2
    · have hgenF3 : (match filterClean [] es0 with
          | (es', some e) => ((FSNode.dir st0 es' : FSNode), ([] : List (Path × Path × Stat)),
              (some e : Option String))
          | (es', none) => filter_dir selF d0 srcF [] [] (.dir st0 es')) =
          (dstF, stamps, none) := hgenF
      clear hgenF
      split at hgenF3
      · cases hgenF3
      · rename_i es0' heqc
        have hnil := filterClean_success_nil [] es0 es0' heqc
        subst hnil
        have hroot : lookupF srcF [] = some srcF := rfl
        rcases filter_dir_stats selF d0 srcF srcF [] [] (.dir st0 []) dstF stamps hroot
          hgenF3 p dstat es2 hp hl with h1 | ⟨es₀, hold⟩ | ⟨hd, hpre, hne⟩
        · exact h1
        · cases p with
          | nil => exact absurd rfl hp
          | cons c q => simp [lookupPath, findEntry] at hold
        · exact absurd (List.prefix_nil.mp hpre) hp

/-- Witness for C9: the symlink-everything Convert pass (where the only
destination directory is the root) and an everything-dropped Filter pass
(empty destination, empty stamp list). -/
theorem c9_dir_stat_mirroring_witness :
    (∀ (p : Path) (dstat : Stat) (es2 : List (String × FSNode)), p ≠ [] →
      lookupPath c1Dst p = some (.dir dstat es2) →
      (lookupF dupSrc p).bind statFollow = some dstat) ∧
    (∀ (p : Path) (dstat : Stat) (es2 : List (String × FSNode)), p ≠ [] →
      lookupPath emptyDst p = some (.dir dstat es2) →
      ∃ s, (s, p, dstat) ∈ ([] : List (Path × Path × Stat)) ∧
        (lookupF dupSrc s).bind statFollow = some dstat) :=
  c9_dir_stat_mirroring false exConv c1Sel exD0 dupSrc emptyDst c1Dst
    (fun _ _ _ => .ok []) dupSrc emptyDst emptyDst [] rfl
    (by simp [FilterProfile_generate, filterClean, filter_dir.eq_def, filterItems,
      resolveNode, emptyDst, dupSrc, exD0, lookupPath])

/-! ### Lemmas for the idempotence claim -/

end Cohydra
